import Mathlib

/-!
Verification of the case-insensitive request-scoped string map
(`HPHP::req::StringIMap`, `hphp/runtime/base/string-hash-map.h`).

The header under verification declares `StringIMap<T>` as a type alias for
`req::hash_map<String, T, hphp_string_hash, hphp_string_isame>`.  The generic
engine `req::hash_map`, the string type and the two functors live outside the
fragment, so they are modelled here from the design document: a stable-reference
entry store (append-only, entries never move), an open-addressing hash index
with tombstones and growth by index rebuild, and a case-folding key strategy.
-/

set_option autoImplicit false

namespace HPHP

/-- Modelled from the spec: the external string key type (an opaque immutable
byte string; §6 "String key type").  Represented as its list of bytes. -/
abbrev String : Type := List Nat

/-- Modelled from the spec: the byte-wise case-folding rule (§4.1, glossary
"Case-fold"): ASCII upper-case letters are mapped to lower case. -/
def toLowerByte (b : Nat) : Nat :=
  if 65 ≤ b ∧ b ≤ 90 then b + 32 else b

/-- Modelled from the spec: case-insensitive normalization of a key's bytes
(§4.1). -/
def foldCase (s : String) : String :=
  s.map toLowerByte

/-- Modelled from the spec: `hphp_string_isame`, the case-insensitive equality
functor (§4.1: "`equal(k1,k2)` returns true iff the case-insensitive
normalizations are byte-equal"). -/
def hphp_string_isame (a b : String) : Bool :=
  decide (foldCase a = foldCase b)

/-- Modelled from the spec: `hphp_string_hash`, the case-insensitive hash
functor (§4.1: "`hash(k)` returns a deterministic unsigned integer over the
case-insensitive normalization of `k`'s bytes").  A 64-bit polynomial hash of
the case-folded bytes. -/
def hphp_string_hash (s : String) : Nat :=
  (foldCase s).foldl (fun h b => (h * 33 + b) % 18446744073709551616) 5381

namespace req

/-- Modelled from the spec: an Entry is an owned (key, value) pair (§3). -/
structure Entry (K T : Type) where
  key : K
  value : T
deriving DecidableEq

/-- Modelled from the spec: a bucket slot of the hash index holds "empty",
"tombstone", or a reference (handle) to an Entry (§3 "Bucket slot"). -/
inductive Bucket where
  | empty : Bucket
  | tomb : Bucket
  | ref (h : Nat) : Bucket
deriving DecidableEq

/-- Whether a bucket slot references a live Entry. -/
def Bucket.isRef : Bucket → Bool
  | .ref _ => true
  | _ => false

/-- Modelled from the spec: the representation of the generic request-scoped
hash map engine (§3 "Map"): the stable Entry storage (`store`, handle-addressed
and append-only, entries never relocated), the bucket-slot index (`index`), and
the number of live entries (`count`). -/
structure HashMapRep (K T : Type) where
  store : List (Option (Entry K T))
  index : List Bucket
  count : Nat
deriving DecidableEq

/-- Modelled from the spec: probe of the hash index (§4.3 `find`): starting at
slot `(start + i) % capacity` with linear probing, skip tombstones, stop with
"not found" on an empty slot, stop with "found" on a slot whose referenced
Entry's key compares equal.  `fuel` bounds the probe length by the capacity. -/
def probeFind {K T : Type} (eqf : K → K → Bool) (index : List Bucket)
    (store : List (Option (Entry K T))) (k : K) (start : Nat) :
    Nat → Nat → Option (Nat × Nat × Entry K T)
  | _, 0 => none
  | i, fuel + 1 =>
    match index[(start + i) % index.length]? with
    | some .empty => none
    | some .tomb => probeFind eqf index store k start (i + 1) fuel
    | some (.ref h) =>
      match store[h]? with
      | some (some e) =>
        if eqf k e.key then some ((start + i) % index.length, h, e)
        else probeFind eqf index store k start (i + 1) fuel
      | _ => probeFind eqf index store k start (i + 1) fuel
    | none => none

/-- Modelled from the spec: search along the probe sequence for the first
empty-or-tombstone slot, where a fresh Entry's handle will be recorded
(§4.3 `insert`). -/
def probeFree (index : List Bucket) (start : Nat) : Nat → Nat → Option Nat
  | _, 0 => none
  | i, fuel + 1 =>
    match index[(start + i) % index.length]? with
    | some .empty => some ((start + i) % index.length)
    | some .tomb => some ((start + i) % index.length)
    | some (.ref _) => probeFree index start (i + 1) fuel
    | none => none

namespace HashMapRep

/-- Modelled from the spec: locate the slot and Entry handle for a key
(§4.3 `find`). -/
def findSlot {K T : Type} (hf : K → Nat) (eqf : K → K → Bool)
    (m : HashMapRep K T) (k : K) : Option (Nat × Nat × Entry K T) :=
  probeFind eqf m.index m.store k (hf k % m.index.length) 0 m.index.length

/-- Modelled from the spec: `find` of the map facade (§4.4), returning the
matching Entry or an absent result. -/
def find {K T : Type} (hf : K → Nat) (eqf : K → K → Bool)
    (m : HashMapRep K T) (k : K) : Option (Entry K T) :=
  (findSlot hf eqf m k).map fun x => x.2.2

/-- Modelled from the spec: the re-insertion loop of `grow` (§4.3): every live
EntryHandle `t < n` of `store` is recorded in the fresh slot array, using the
hash recomputed from the already-allocated Entry's key; Entries themselves are
not touched. -/
def reinsertAll {K T : Type} (hf : K → Nat) (store : List (Option (Entry K T)))
    (index : List Bucket) : Nat → List Bucket
  | 0 => index
  | t + 1 =>
    let idx := reinsertAll hf store index t
    match store[t]? with
    | some (some e) =>
      match probeFree idx (hf e.key % idx.length) 0 idx.length with
      | some j => idx.set j (.ref t)
      | none => idx
    | _ => idx

/-- Modelled from the spec: `grow` (§4.3): allocate a slot array at twice the
capacity, re-insert every live EntryHandle, discard the old slot array.  Only
slots are relocated, never Entries (`store` is unchanged). -/
def grow {K T : Type} (hf : K → Nat) (m : HashMapRep K T) : HashMapRep K T :=
  { m with
    index := reinsertAll hf m.store
      (List.replicate (2 * m.index.length) .empty) m.store.length }

/-- Modelled from the spec: `insert_or_assign` of the map facade (§4.4): if the
key is already present the existing Entry's value is overwritten in place at
the same handle (the Entry retains its original key casing); otherwise growth
is triggered first if the load factor would exceed 3/4, a fresh Entry is
appended to the stable store, and its handle is recorded in the first
empty-or-tombstone slot along the probe sequence. -/
def insert_or_assign {K T : Type} (hf : K → Nat) (eqf : K → K → Bool)
    (m : HashMapRep K T) (k : K) (v : T) : HashMapRep K T :=
  match findSlot hf eqf m k with
  | some (_, h, e) =>
    { m with store := m.store.set h (some { key := e.key, value := v }) }
  | none =>
    let m' := if 4 * (m.count + 1) > 3 * m.index.length then grow hf m else m
    match probeFree m'.index (hf k % m'.index.length) 0 m'.index.length with
    | some j =>
      { store := m'.store ++ [some { key := k, value := v }]
        index := m'.index.set j (.ref m'.store.length)
        count := m'.count + 1 }
    | none => m'

/-- Modelled from the spec: `erase` (§4.3/4.4): if the key is found, release
the Entry, mark the slot as tombstone and report true; otherwise report
"not found" without altering the map. -/
def erase {K T : Type} (hf : K → Nat) (eqf : K → K → Bool)
    (m : HashMapRep K T) (k : K) : HashMapRep K T × Bool :=
  match findSlot hf eqf m k with
  | some (j, h, _) =>
    ({ store := m.store.set h none
       index := m.index.set j .tomb
       count := m.count - 1 }, true)
  | none => (m, false)

/-- Modelled from the spec: `size` of the map facade (§4.4). -/
def size {K T : Type} (m : HashMapRep K T) : Nat :=
  m.count

/-- Modelled from the spec: a freshly constructed map (initial capacity 8,
no entries). -/
def empty (K T : Type) : HashMapRep K T :=
  { store := [], index := List.replicate 8 .empty, count := 0 }

/-- Modelled from the spec: `clear` (§4.4): release all Entries and reset the
index; all previously obtained handles become invalid. -/
def clear {K T : Type} (_m : HashMapRep K T) : HashMapRep K T :=
  empty K T

/-- A sequence of `insert_or_assign` operations, applied left to right. -/
def insertList {K T : Type} (hf : K → Nat) (eqf : K → K → Bool)
    (m : HashMapRep K T) (ps : List (K × T)) : HashMapRep K T :=
  ps.foldl (fun acc p => insert_or_assign hf eqf acc p.1 p.2) m

/-- A key is present in the map: some live Entry's key compares equal. -/
def memKey {K T : Type} (eqf : K → K → Bool) (m : HashMapRep K T) (k : K) : Prop :=
  ∃ (h : Nat) (e : Entry K T), m.store[h]? = some (some e) ∧ eqf k e.key = true

end HashMapRep

/-- Number of probe steps from start position `s` to slot `j` in a table of
`len` slots (linear probing). -/
def dist (len s j : Nat) : Nat :=
  (j + len - s) % len

/-- The representation invariant of the engine, from the spec's §3 invariant
list: positive capacity; every non-empty bucket slot refers to exactly one
live Entry and every live Entry is referred to by exactly one bucket slot;
at most one live Entry per distinct case-folded key; every live Entry is
reachable from its hash start position without crossing an empty slot
(probe-sequence integrity maintained by tombstones); `count` agrees with the
number of live Entries and of referring slots and never exceeds capacity. -/
structure Wf {K T : Type} (hf : K → Nat) (eqf : K → K → Bool)
    (m : HashMapRep K T) : Prop where
  capPos : 0 < m.index.length
  refsValid : ∀ (j h : Nat), m.index[j]? = some (Bucket.ref h) →
    ∃ e : Entry K T, m.store[h]? = some (some e)
  refsInj : ∀ (j j' h : Nat), m.index[j]? = some (Bucket.ref h) →
    m.index[j']? = some (Bucket.ref h) → j = j'
  liveRef : ∀ (h : Nat) (e : Entry K T), m.store[h]? = some (some e) →
    ∃ j : Nat, m.index[j]? = some (Bucket.ref h)
  uniq : ∀ (h h' : Nat) (e e' : Entry K T), m.store[h]? = some (some e) →
    m.store[h']? = some (some e') → eqf e.key e'.key = true → h = h'
  reach : ∀ (j h : Nat) (e : Entry K T), m.index[j]? = some (Bucket.ref h) →
    m.store[h]? = some (some e) →
    ∀ d, d < dist m.index.length (hf e.key % m.index.length) j →
      m.index[(hf e.key % m.index.length + d) % m.index.length]? ≠ some Bucket.empty
  countLive : m.store.countP (fun o => o.isSome) = m.count
  refCount : m.index.countP Bucket.isRef = m.count
  countLe : m.count ≤ m.index.length

/-- Intermediate invariant of the `grow` re-insertion loop after the first `t`
handles of the stable store have been processed: the partial index references
exactly the live handles below `t`, injectively, with no tombstones, every
referenced Entry reachable along its probe sequence, and as many `ref` slots
as there are live entries below `t`. -/
structure ReinsertInv {K T : Type} (hf : K → Nat)
    (st : List (Option (Entry K T))) (idx : List Bucket) (t : Nat) : Prop where
  refsValid : ∀ (j h : Nat), idx[j]? = some (Bucket.ref h) →
    h < t ∧ ∃ e : Entry K T, st[h]? = some (some e)
  refsInj : ∀ (j j' h : Nat), idx[j]? = some (Bucket.ref h) →
    idx[j']? = some (Bucket.ref h) → j = j'
  liveRef : ∀ (h : Nat) (e : Entry K T), h < t → st[h]? = some (some e) →
    ∃ j : Nat, idx[j]? = some (Bucket.ref h)
  noTomb : ∀ j : Nat, idx[j]? ≠ some Bucket.tomb
  reach : ∀ (j h : Nat) (e : Entry K T), idx[j]? = some (Bucket.ref h) →
    st[h]? = some (some e) →
    ∀ d, d < dist idx.length (hf e.key % idx.length) j →
      idx[(hf e.key % idx.length + d) % idx.length]? ≠ some Bucket.empty
  refCount : idx.countP Bucket.isRef = (st.take t).countP (fun o => o.isSome)

/-- Number of insertions in a key sequence whose key is equal (under `eqf`) to
some earlier key (the accumulator `seen` holds the keys already inserted). -/
def dupCount {K : Type} (eqf : K → K → Bool) : List K → List K → Nat
  | _, [] => 0
  | seen, k :: ks =>
    (if seen.any fun s => eqf k s then 1 else 0) + dupCount eqf (k :: seen) ks

/-- The generic request-scoped hash map engine, parameterized by the key and
value types and by the hash and equality functor slots (the Lean counterpart
of the C++ class template `req::hash_map<Key, T, Hash, Equal>`; the engine
itself is modelled from the spec in `HashMapRep`). -/
abbrev hash_map (K T : Type) (_hf : K → Nat) (_eqf : K → K → Bool) : Type :=
  HashMapRep K T

/-- The declaration under verification (string-hash-map.h line 28): map from
case-insensitive String keys to `T`, with iterator/reference stability. -/
abbrev StringIMap (T : Type) : Type :=
  hash_map String T hphp_string_hash hphp_string_isame

/-- Stated from the claim's words (for the refinement claim): the alias target
`req::hash_map<String, T, hphp_string_hash, hphp_string_isame>` spelled out. -/
def StringIMapSpec (T : Type) : Type :=
  hash_map String T hphp_string_hash hphp_string_isame

end req

end HPHP

/-! ### Basic facts about the case-fold strategy -/

namespace HPHP

theorem isame_iff (a b : String) :
    hphp_string_isame a b = true ↔ foldCase a = foldCase b := by
  simp [hphp_string_isame]

theorem isame_refl (a : String) : hphp_string_isame a a = true := by
  simp [hphp_string_isame]

theorem isame_symm (a b : String) :
    hphp_string_isame a b = hphp_string_isame b a := by
  simp [hphp_string_isame, eq_comm]

theorem isame_congr {k1 k2 : String} (h : hphp_string_isame k1 k2 = true)
    (x : String) : hphp_string_isame k1 x = hphp_string_isame k2 x := by
  unfold hphp_string_isame
  rw [(isame_iff k1 k2).mp h]

theorem hash_eq_of_isame {a b : String} (h : hphp_string_isame a b = true) :
    hphp_string_hash a = hphp_string_hash b := by
  unfold hphp_string_hash
  rw [(isame_iff a b).mp h]

/-! ### List access helpers -/

theorem getElem_set_self {α : Type} (l : List α) (i : Nat) (a : α)
    (h : i < l.length) : (l.set i a)[i]? = some a := by
  rw [List.getElem?_set_self', List.getElem?_eq_getElem h]
  rfl

theorem lt_of_getElem_some {α : Type} {l : List α} {i : Nat} {b : α}
    (h : l[i]? = some b) : i < l.length :=
  (List.getElem?_eq_some_iff.mp h).choose

theorem exists_getElem_of_lt {α : Type} {l : List α} {i : Nat}
    (h : i < l.length) : ∃ b, l[i]? = some b :=
  ⟨l[i], List.getElem?_eq_getElem h⟩

theorem getElem_of_getElem_some {α : Type} {l : List α} {i : Nat} {b : α}
    (h : l[i]? = some b) (hlt : i < l.length) : l[i] = b := by
  rw [List.getElem?_eq_getElem hlt] at h
  exact Option.some.inj h

theorem countP_set_incr {α : Type} (l : List α) (p : α → Bool) (i : Nat)
    (a b : α) (hi : l[i]? = some a) (hpa : p a = false) (hpb : p b = true) :
    (l.set i b).countP p = l.countP p + 1 := by
  have hlt := lt_of_getElem_some hi
  have hla : l[i] = a := getElem_of_getElem_some hi hlt
  rw [List.countP_set p l i b hlt, hla, hpa, hpb]
  simp

theorem countP_pos_of_getElem {α : Type} {l : List α} {p : α → Bool} {i : Nat}
    {a : α} (hi : l[i]? = some a) (hpa : p a = true) : 0 < l.countP p := by
  rw [List.countP_pos_iff]
  exact ⟨a, List.getElem?_mem hi, hpa⟩

theorem countP_set_decr {α : Type} (l : List α) (p : α → Bool) (i : Nat)
    (a b : α) (hi : l[i]? = some a) (hpa : p a = true) (hpb : p b = false) :
    (l.set i b).countP p + 1 = l.countP p := by
  have hlt := lt_of_getElem_some hi
  have hla : l[i] = a := getElem_of_getElem_some hi hlt
  have hpos := countP_pos_of_getElem hi hpa
  rw [List.countP_set p l i b hlt, hla, hpa, hpb]
  simp
  omega

/-! ### Probe distance arithmetic -/

namespace req

theorem dist_lt {len : Nat} (hlen : 0 < len) (s j : Nat) : dist len s j < len :=
  Nat.mod_lt _ hlen

theorem add_dist_mod {len s j : Nat} (hs : s < len) (hj : j < len) :
    (s + dist len s j) % len = j := by
  unfold dist
  rw [Nat.add_mod_mod]
  have hsum : s + (j + len - s) = j + len := by omega
  rw [hsum, Nat.add_mod_right, Nat.mod_eq_of_lt hj]

end req

end HPHP

/-! ### Probe lemmas -/

namespace HPHP

namespace req

theorem dist_probe {len s D : Nat} (hs : s < len) (hD : D < len) :
    dist len s ((s + D) % len) = D := by
  unfold dist
  by_cases hlt : s + D < len
  · rw [Nat.mod_eq_of_lt hlt]
    have heq : s + D + len - s = D + len := by omega
    rw [heq, Nat.add_mod_right, Nat.mod_eq_of_lt hD]
  · have hge : len ≤ s + D := by omega
    rw [Nat.mod_eq_sub_mod hge, Nat.mod_eq_of_lt (by omega : s + D - len < len)]
    have heq : s + D - len + len - s = D := by omega
    rw [heq, Nat.mod_eq_of_lt hD]

theorem probeFind_sound {K T : Type} (eqf : K → K → Bool) (idx : List Bucket)
    (st : List (Option (Entry K T))) (k : K) (s : Nat) :
    ∀ (fuel i j h : Nat) (e : Entry K T),
      probeFind eqf idx st k s i fuel = some (j, h, e) →
      idx[j]? = some (Bucket.ref h) ∧ st[h]? = some (some e) ∧
        eqf k e.key = true := by
  intro fuel
  induction fuel with
  | zero =>
    intro i j h e hp
    simp [probeFind] at hp
  | succ fuel ih =>
    intro i j h e hp
    rw [probeFind] at hp
    split at hp
    · exact absurd hp (by simp)
    · exact ih _ _ _ _ hp
    · rename_i h' hbj
      split at hp
      · rename_i e' hbh
        split at hp
        · rename_i hk
          simp only [Option.some.injEq, Prod.mk.injEq] at hp
          obtain ⟨hj, hh, he⟩ := hp
          subst hj; subst hh; subst he
          exact ⟨hbj, hbh, hk⟩
        · exact ih _ _ _ _ hp
      · exact ih _ _ _ _ hp
    · exact absurd hp (by simp)

theorem probeFind_congr {K T : Type} (eqf : K → K → Bool) (idx : List Bucket)
    (st : List (Option (Entry K T))) {k k' : K}
    (hk : ∀ x, eqf k x = eqf k' x) (s : Nat) :
    ∀ fuel i, probeFind eqf idx st k s i fuel = probeFind eqf idx st k' s i fuel := by
  intro fuel
  induction fuel with
  | zero => intro i; rfl
  | succ fuel ih =>
    intro i
    rw [probeFind, probeFind]
    split
    · rfl
    · exact ih (i + 1)
    · rename_i h' hbj
      split
      · rename_i e' hbh
        rw [hk e'.key]
        by_cases hkk : eqf k' e'.key = true
        · rw [if_pos hkk, if_pos hkk]
        · rw [if_neg hkk, if_neg hkk]
          exact ih (i + 1)
      · exact ih (i + 1)
    · rfl

end req

end HPHP

namespace HPHP

namespace req

theorem probeFind_set_found {K T : Type} (eqf : K → K → Bool) (idx : List Bucket)
    (st : List (Option (Entry K T))) (k : K) (s : Nat) (v : T) :
    ∀ (fuel i j h : Nat) (e : Entry K T),
      probeFind eqf idx st k s i fuel = some (j, h, e) →
      probeFind eqf idx (st.set h (some { key := e.key, value := v })) k s i fuel
        = some (j, h, { key := e.key, value := v }) := by
  intro fuel
  induction fuel with
  | zero =>
    intro i j h e hp
    simp [probeFind] at hp
  | succ fuel ih =>
    intro i j h e hp
    obtain ⟨hj, hh, hkey⟩ := probeFind_sound eqf idx st k s (fuel + 1) i j h e hp
    rw [probeFind] at hp
    rw [probeFind]
    try simp only [List.get?_eq_getElem?] at hp ⊢
    cases hbj : idx[(s + i) % idx.length]? with
    | none =>
      simp only [hbj] at hp
      exact Option.noConfusion hp
    | some b =>
      simp only [hbj] at hp ⊢
      cases b with
      | empty => exact absurd hp (by simp)
      | tomb => exact ih (i + 1) j h e hp
      | ref h' =>
        by_cases hne : h' = h
        · subst hne
          simp only [hh] at hp
          rw [if_pos hkey] at hp
          have htup := Option.some.inj hp
          have hpj : (s + i) % idx.length = j := congrArg Prod.fst htup
          subst hpj
          have hset : (st.set h' (some { key := e.key, value := v }))[h']? =
              some (some { key := e.key, value := v }) :=
            getElem_set_self st h' _ (lt_of_getElem_some hh)
          simp only [hset, hkey, if_true]
        · have hset : (st.set h (some { key := e.key, value := v }))[h']? = st[h']? :=
            List.getElem?_set_ne (fun hc => hne hc.symm)
          cases hbh : st[h']? with
          | none =>
            simp only [hbh] at hp
            simp only [hset, hbh]
            exact ih (i + 1) j h e hp
          | some oe =>
            cases oe with
            | none =>
              simp only [hbh] at hp
              simp only [hset, hbh]
              exact ih (i + 1) j h e hp
            | some e' =>
              simp only [hbh] at hp
              by_cases hk' : eqf k e'.key = true
              · rw [if_pos hk'] at hp
                simp only [Option.some.injEq, Prod.mk.injEq] at hp
                exact absurd hp.2.1 hne
              · rw [if_neg hk'] at hp
                simp only [hset, hbh]
                rw [if_neg hk']
                exact ih (i + 1) j h e hp

theorem probeFind_complete {K T : Type} (eqf : K → K → Bool) (idx : List Bucket)
    (st : List (Option (Entry K T))) (k : K) (s : Nat) (j h : Nat) (e : Entry K T)
    (hv : ∀ (j' h' : Nat), idx[j']? = some (Bucket.ref h') →
      ∃ e' : Entry K T, st[h']? = some (some e'))
    (hj : idx[j]? = some (Bucket.ref h)) (he : st[h]? = some (some e))
    (hk : eqf k e.key = true)
    (hreach : ∀ d, d < dist idx.length s j →
      idx[(s + d) % idx.length]? ≠ some Bucket.empty)
    (hs : s < idx.length) :
    probeFind eqf idx st k s 0 idx.length ≠ none := by
  have hjlt : j < idx.length := lt_of_getElem_some hj
  suffices H : ∀ fuel i, i ≤ dist idx.length s j →
      dist idx.length s j - i < fuel → probeFind eqf idx st k s i fuel ≠ none by
    exact H idx.length 0 (Nat.zero_le _)
      (by have := dist_lt (by omega : 0 < idx.length) s j; omega)
  intro fuel
  induction fuel with
  | zero =>
    intro i h1 h2
    exact absurd h2 (Nat.not_lt_zero _)
  | succ fuel ih =>
    intro i h1 h2
    rw [probeFind]
    try simp only [List.get?_eq_getElem?]
    by_cases hid : i = dist idx.length s j
    · have hji : (s + i) % idx.length = j := by
        rw [hid]
        exact add_dist_mod hs hjlt
      rw [hji]
      simp only [hj, he, hk, if_true]
      simp
    · have hlt : i < dist idx.length s j := by omega
      have hnemp := hreach i hlt
      cases hbi : idx[(s + i) % idx.length]? with
      | none =>
        have hm : (s + i) % idx.length < idx.length := Nat.mod_lt _ (by omega)
        obtain ⟨b, hb⟩ := exists_getElem_of_lt hm
        rw [hbi] at hb
        exact Option.noConfusion hb
      | some b =>
        cases b with
        | empty => exact absurd hbi hnemp
        | tomb =>
          simp only [hbi]
          exact ih (i + 1) (by omega) (by omega)
        | ref h' =>
          obtain ⟨e', he'⟩ := hv _ _ hbi
          simp only [hbi, he']
          by_cases hk' : eqf k e'.key = true
          · rw [if_pos hk']
            simp
          · rw [if_neg hk']
            exact ih (i + 1) (by omega) (by omega)

theorem probeFree_sound (idx : List Bucket) (s : Nat) :
    ∀ (fuel i j : Nat), probeFree idx s i fuel = some j →
      ∃ D, i ≤ D ∧ D < i + fuel ∧ j = (s + D) % idx.length ∧
        (idx[j]? = some Bucket.empty ∨ idx[j]? = some Bucket.tomb) ∧
        ∀ d, i ≤ d → d < D →
          ∃ h, idx[(s + d) % idx.length]? = some (Bucket.ref h) := by
  intro fuel
  induction fuel with
  | zero =>
    intro i j hp
    simp [probeFree] at hp
  | succ fuel ih =>
    intro i j hp
    rw [probeFree] at hp
    try simp only [List.get?_eq_getElem?] at hp
    cases hbi : idx[(s + i) % idx.length]? with
    | none =>
      simp only [hbi] at hp
      exact Option.noConfusion hp
    | some b =>
      simp only [hbi] at hp
      cases b with
      | empty =>
        have hji : j = (s + i) % idx.length := (Option.some.inj hp).symm
        refine ⟨i, le_refl i, by omega, hji, Or.inl (by rw [hji]; exact hbi), ?_⟩
        intro d hd1 hd2
        exact absurd hd2 (by omega)
      | tomb =>
        have hji : j = (s + i) % idx.length := (Option.some.inj hp).symm
        refine ⟨i, le_refl i, by omega, hji, Or.inr (by rw [hji]; exact hbi), ?_⟩
        intro d hd1 hd2
        exact absurd hd2 (by omega)
      | ref h' =>
        obtain ⟨D, hD1, hD2, hD3, hD4, hD5⟩ := ih (i + 1) j hp
        refine ⟨D, by omega, by omega, hD3, hD4, ?_⟩
        intro d hd1 hd2
        by_cases hdi : d = i
        · subst hdi
          exact ⟨h', hbi⟩
        · exact hD5 d (by omega) hd2

theorem probeFree_none (idx : List Bucket) (s : Nat) (hlen : 0 < idx.length) :
    ∀ (fuel i : Nat), probeFree idx s i fuel = none →
      ∀ d, i ≤ d → d < i + fuel →
        ∃ h, idx[(s + d) % idx.length]? = some (Bucket.ref h) := by
  intro fuel
  induction fuel with
  | zero =>
    intro i hp d h1 h2
    exact absurd h2 (by omega)
  | succ fuel ih =>
    intro i hp d h1 h2
    rw [probeFree] at hp
    try simp only [List.get?_eq_getElem?] at hp
    cases hbi : idx[(s + i) % idx.length]? with
    | none =>
      have hm : (s + i) % idx.length < idx.length := Nat.mod_lt _ hlen
      obtain ⟨b, hb⟩ := exists_getElem_of_lt hm
      rw [hbi] at hb
      exact Option.noConfusion hb
    | some b =>
      simp only [hbi] at hp
      cases b with
      | empty => exact Option.noConfusion hp
      | tomb => exact Option.noConfusion hp
      | ref h' =>
        by_cases hdi : d = i
        · subst hdi
          exact ⟨h', hbi⟩
        · exact ih (i + 1) hp d (by omega) (by omega)

theorem exists_nonref_of_countP_lt (idx : List Bucket)
    (h : idx.countP Bucket.isRef < idx.length) :
    ∃ (j : Nat) (b : Bucket), j < idx.length ∧ idx[j]? = some b ∧
      b.isRef = false := by
  by_contra hc
  push_neg at hc
  have hall : ∀ b ∈ idx, Bucket.isRef b = true := by
    intro b hb
    obtain ⟨j, hjb⟩ := List.get?_of_mem hb
    rw [List.get?_eq_getElem?] at hjb
    have hjlt := lt_of_getElem_some hjb
    have hbne := hc j b hjlt hjb
    cases hbr : b.isRef
    · exact absurd hbr hbne
    · rfl
  have := List.countP_eq_length.mpr hall
  omega

theorem probeFree_total (idx : List Bucket) (s : Nat) (hlen : 0 < idx.length)
    (hcount : idx.countP Bucket.isRef < idx.length) (hs : s < idx.length) :
    probeFree idx s 0 idx.length ≠ none := by
  intro hnone
  obtain ⟨j, b, hjlt, hjb, hbr⟩ := exists_nonref_of_countP_lt idx hcount
  have hd := probeFree_none idx s hlen idx.length 0 hnone
    (dist idx.length s j) (Nat.zero_le _)
    (by have := dist_lt hlen s j; omega)
  rw [add_dist_mod hs hjlt] at hd
  obtain ⟨h', hh'⟩ := hd
  rw [hjb] at hh'
  have hbref : b = Bucket.ref h' := Option.some.inj hh'
  subst hbref
  simp [Bucket.isRef] at hbr

end req

end HPHP

/-! ### Small structural helpers -/

namespace HPHP

namespace req

theorem eq_of_getElem_replicate {α : Type} {n j : Nat} {a b : α}
    (h : (List.replicate n a)[j]? = some b) : b = a := by
  rw [List.getElem?_replicate] at h
  by_cases hj : j < n
  · rw [if_pos hj] at h
    exact (Option.some.inj h).symm
  · rw [if_neg hj] at h
    exact Option.noConfusion h

theorem getElem_append_some {α : Type} {l : List α} {a b : α} {i : Nat}
    (h : (l ++ [a])[i]? = some b) :
    (i < l.length ∧ l[i]? = some b) ∨ (i = l.length ∧ b = a) := by
  by_cases hi : i < l.length
  · rw [List.getElem?_append_left hi] at h
    exact Or.inl ⟨hi, h⟩
  · by_cases he : i = l.length
    · subst he
      rw [List.getElem?_concat_length] at h
      exact Or.inr ⟨rfl, (Option.some.inj h).symm⟩
    · have hlen : (l ++ [a]).length ≤ i := by
        simp only [List.length_append, List.length_singleton]
        omega
      rw [List.getElem?_len_le hlen] at h
      exact Option.noConfusion h

theorem set_ref_not_empty {idx : List Bucket} {j n x : Nat}
    (h : (idx.set j (Bucket.ref n))[x]? = some Bucket.empty) :
    idx[x]? = some Bucket.empty := by
  by_cases hx : x = j
  · subst hx
    by_cases hlt : x < idx.length
    · rw [getElem_set_self idx x _ hlt] at h
      exact absurd h (by simp)
    · rw [List.getElem?_len_le (by simpa using Nat.le_of_not_lt hlt)] at h
      exact Option.noConfusion h
  · rw [List.getElem?_set_ne (fun hc => hx hc.symm)] at h
    exact h

theorem countP_set_congr {α : Type} (l : List α) (p : α → Bool) (i : Nat)
    (a b : α) (hi : l[i]? = some a) (hpab : p a = p b) :
    (l.set i b).countP p = l.countP p := by
  have hlt := lt_of_getElem_some hi
  have hla : l[i] = a := getElem_of_getElem_some hi hlt
  rw [List.countP_set p l i b hlt, hla, hpab]
  by_cases hpb : p b = true
  · rw [hpb]
    simp only [if_true]
    have : 0 < l.countP p := countP_pos_of_getElem hi (hpab.trans hpb)
    omega
  · rw [Bool.of_not_eq_true hpb]
    simp

theorem countP_take_le {α : Type} (l : List α) (p : α → Bool) (t : Nat) :
    (l.take t).countP p ≤ l.countP p :=
  (List.take_sublist t l).countP_le p

theorem reinsertAll_length {K T : Type} (hf : K → Nat)
    (st : List (Option (Entry K T))) (idx : List Bucket) :
    ∀ t, (HashMapRep.reinsertAll hf st idx t).length = idx.length := by
  intro t
  induction t with
  | zero => rfl
  | succ t ih =>
    rw [HashMapRep.reinsertAll]
    cases hbt : st[t]? with
    | none => simpa only [hbt] using ih
    | some oe =>
      cases oe with
      | none => simpa only [hbt] using ih
      | some e =>
        simp only [hbt]
        cases hpf : probeFree (HashMapRep.reinsertAll hf st idx t)
            (hf e.key % (HashMapRep.reinsertAll hf st idx t).length) 0
            (HashMapRep.reinsertAll hf st idx t).length with
        | none => simpa only [hpf] using ih
        | some j => simp only [hpf, List.length_set]; exact ih

end req

end HPHP

/-! ### Map-level lemmas that need only probe soundness -/

namespace HPHP

namespace req

open HashMapRep

theorem findSlot_sound {K T : Type} (hf : K → Nat) (eqf : K → K → Bool)
    (m : HashMapRep K T) (k : K) (j h : Nat) (e : Entry K T)
    (hp : findSlot hf eqf m k = some (j, h, e)) :
    m.index[j]? = some (Bucket.ref h) ∧ m.store[h]? = some (some e) ∧
      eqf k e.key = true :=
  probeFind_sound eqf m.index m.store k _ m.index.length 0 j h e hp

theorem grow_store {K T : Type} (hf : K → Nat) (m : HashMapRep K T) :
    (grow hf m).store = m.store :=
  rfl

theorem grow_count {K T : Type} (hf : K → Nat) (m : HashMapRep K T) :
    (grow hf m).count = m.count :=
  rfl

theorem insert_preserves_unrelated {K T : Type} (hf : K → Nat)
    (eqf : K → K → Bool) (m : HashMapRep K T) (k : K) (v : T) (hA : Nat)
    (eA : Entry K T) (hstore : m.store[hA]? = some (some eA))
    (hunrel : eqf k eA.key = false) :
    (insert_or_assign hf eqf m k v).store[hA]? = some (some eA) := by
  unfold insert_or_assign
  cases hfs : findSlot hf eqf m k with
  | some x =>
    obtain ⟨j, h, e⟩ := x
    obtain ⟨hj, hh, hkey⟩ := findSlot_sound hf eqf m k j h e hfs
    simp only [hfs]
    have hne : h ≠ hA := by
      intro hc
      subst hc
      rw [hstore] at hh
      have he : eA = e := Option.some.inj (Option.some.inj hh)
      rw [← he] at hkey
      rw [hunrel] at hkey
      exact Bool.noConfusion hkey
    show (m.store.set h (some { key := e.key, value := v }))[hA]? = some (some eA)
    rw [List.getElem?_set_ne hne]
    exact hstore
  | none =>
    simp only [hfs]
    set m2 := if 4 * (m.count + 1) > 3 * m.index.length then grow hf m else m
      with hm2
    have hm2store : m2.store = m.store := by
      rw [hm2]
      by_cases hc : 4 * (m.count + 1) > 3 * m.index.length
      · rw [if_pos hc]
        rfl
      · rw [if_neg hc]
    cases hpf : probeFree m2.index (hf k % m2.index.length) 0 m2.index.length with
    | some j =>
      simp only [hpf]
      show (m2.store ++ [some { key := k, value := v }])[hA]? = some (some eA)
      rw [hm2store, List.getElem?_append_left (lt_of_getElem_some hstore)]
      exact hstore
    | none =>
      simp only [hpf]
      show m2.store[hA]? = some (some eA)
      rw [hm2store]
      exact hstore

theorem insert_overwrite {K T : Type} (hf : K → Nat) (eqf : K → K → Bool)
    (m : HashMapRep K T) (k : K) (v2 : T) (j h : Nat) (e : Entry K T)
    (hfs : findSlot hf eqf m k = some (j, h, e)) :
    insert_or_assign hf eqf m k v2 =
      { m with store := m.store.set h (some { key := e.key, value := v2 }) } := by
  unfold insert_or_assign
  rw [hfs]

theorem erase_found {K T : Type} (hf : K → Nat) (eqf : K → K → Bool)
    (m : HashMapRep K T) (k : K) (j h : Nat) (e : Entry K T)
    (hfs : findSlot hf eqf m k = some (j, h, e)) :
    erase hf eqf m k =
      ({ store := m.store.set h none
         index := m.index.set j Bucket.tomb
         count := m.count - 1 }, true) := by
  unfold erase
  rw [hfs]

theorem erase_not_found {K T : Type} (hf : K → Nat) (eqf : K → K → Bool)
    (m : HashMapRep K T) (k : K) (hfs : findSlot hf eqf m k = none) :
    erase hf eqf m k = (m, false) := by
  unfold erase
  rw [hfs]

theorem erase_preserves_unrelated {K T : Type} (hf : K → Nat)
    (eqf : K → K → Bool) (m : HashMapRep K T) (x : K) (hb : Nat)
    (eb : Entry K T) (hstore : m.store[hb]? = some (some eb))
    (hunrel : eqf x eb.key = false) :
    ((erase hf eqf m x).1).store[hb]? = some (some eb) := by
  cases hfs : findSlot hf eqf m x with
  | none =>
    rw [erase_not_found hf eqf m x hfs]
    exact hstore
  | some y =>
    obtain ⟨j, h, e⟩ := y
    obtain ⟨hj, hh, hkey⟩ := findSlot_sound hf eqf m x j h e hfs
    rw [erase_found hf eqf m x j h e hfs]
    have hne : h ≠ hb := by
      intro hc
      subst hc
      rw [hstore] at hh
      have he : eb = e := Option.some.inj (Option.some.inj hh)
      rw [← he] at hkey
      rw [hunrel] at hkey
      exact Bool.noConfusion hkey
    show (m.store.set h none)[hb]? = some (some eb)
    rw [List.getElem?_set_ne hne]
    exact hstore

theorem find_congr_isame {T : Type} (m : HashMapRep String T) {k1 k2 : String}
    (h12 : hphp_string_isame k1 k2 = true) :
    find hphp_string_hash hphp_string_isame m k1 =
      find hphp_string_hash hphp_string_isame m k2 := by
  unfold find findSlot
  rw [hash_eq_of_isame h12]
  rw [probeFind_congr hphp_string_isame m.index m.store (isame_congr h12)
    (hphp_string_hash k2 % m.index.length) m.index.length 0]

end req

end HPHP

namespace HPHP

namespace req

theorem wf_empty (K T : Type) (hf : K → Nat) (eqf : K → K → Bool) :
    Wf hf eqf (HashMapRep.empty K T) := by
  refine ⟨?_, ?_, ?_, ?_, ?_, ?_, ?_, ?_, ?_⟩
  · show 0 < (List.replicate 8 Bucket.empty).length
    simp
  · intro j h hj
    exact absurd (eq_of_getElem_replicate hj) (by simp)
  · intro j j' h hj hj'
    exact absurd (eq_of_getElem_replicate hj) (by simp)
  · intro h e hh
    simp [HashMapRep.empty] at hh
  · intro h h' e e' hh
    simp [HashMapRep.empty] at hh
  · intro j h e hj
    exact absurd (eq_of_getElem_replicate hj) (by simp)
  · rfl
  · rfl
  · show (0 : Nat) ≤ (List.replicate 8 Bucket.empty).length
    simp

theorem probeFind_replicate_empty {K T : Type} (eqf : K → K → Bool)
    (st : List (Option (Entry K T))) (k : K) (s i n fuel : Nat) (hn : 0 < n) :
    probeFind eqf (List.replicate n Bucket.empty) st k s i fuel = none := by
  cases fuel with
  | zero => rfl
  | succ f =>
    rw [probeFind]
    have hslot : (List.replicate n Bucket.empty)[(s + i) %
        (List.replicate n Bucket.empty).length]? = some Bucket.empty := by
      rw [List.length_replicate, List.getElem?_replicate]
      exact if_pos (Nat.mod_lt _ hn)
    simp only [hslot]

theorem find_empty {K T : Type} (hf : K → Nat) (eqf : K → K → Bool) (k : K) :
    HashMapRep.find hf eqf (HashMapRep.empty K T) k = none := by
  unfold HashMapRep.find HashMapRep.findSlot HashMapRep.empty
  rw [probeFind_replicate_empty eqf [] k _ 0 8 _ (by omega)]
  rfl

end req

end HPHP

/-! ### Growth preserves the representation invariant -/

namespace HPHP

namespace req

theorem ReinsertInv.extend_dead {K T : Type} {hf : K → Nat}
    {st : List (Option (Entry K T))} {idx : List Bucket} {t : Nat}
    (inv : ReinsertInv hf st idx t)
    (hbt : st[t]? = none ∨ st[t]? = some none) :
    ReinsertInv hf st idx (t + 1) := by
  refine ⟨?_, inv.refsInj, ?_, inv.noTomb, inv.reach, ?_⟩
  · intro j h hj
    obtain ⟨hlt, he⟩ := inv.refsValid j h hj
    exact ⟨by omega, he⟩
  · intro h e hht hse
    by_cases hht' : h < t
    · exact inv.liveRef h e hht' hse
    · have hh : h = t := by omega
      subst hh
      rcases hbt with hb | hb <;> rw [hb] at hse
      · exact absurd hse (by simp)
      · exact absurd hse (by simp)
  · rcases hbt with hb | hb <;>
      rw [List.take_succ, hb] <;>
      simp [List.countP_append, inv.refCount]

theorem ReinsertInv.extend_live {K T : Type} {hf : K → Nat}
    {st : List (Option (Entry K T))} {idx : List Bucket} {t : Nat}
    (inv : ReinsertInv hf st idx t) (e : Entry K T)
    (hbt : st[t]? = some (some e)) (hlen : 0 < idx.length) (j : Nat)
    (hpf : probeFree idx (hf e.key % idx.length) 0 idx.length = some j) :
    ReinsertInv hf st (idx.set j (Bucket.ref t)) (t + 1) := by
  obtain ⟨D, hD1, hD2, hD3, hD45, hD5⟩ :=
    probeFree_sound idx (hf e.key % idx.length) idx.length 0 j hpf
  have hs : hf e.key % idx.length < idx.length := Nat.mod_lt _ hlen
  have hjlt : j < idx.length := by
    rw [hD3]
    exact Nat.mod_lt _ hlen
  have hDlt : D < idx.length := by omega
  have hjfree : idx[j]? = some Bucket.empty := by
    rcases hD45 with hfr | hfr
    · exact hfr
    · exact absurd hfr (inv.noTomb j)
  have hdistj : dist idx.length (hf e.key % idx.length) j = D := by
    rw [hD3]
    exact dist_probe hs hDlt
  have hset_self : (idx.set j (Bucket.ref t))[j]? = some (Bucket.ref t) :=
    getElem_set_self idx j _ hjlt
  have hset_ne : ∀ x : Nat, x ≠ j →
      (idx.set j (Bucket.ref t))[x]? = idx[x]? :=
    fun x hx => List.getElem?_set_ne (fun hc => hx hc.symm)
  have htfresh : ∀ (j₀ h₀ : Nat), idx[j₀]? = some (Bucket.ref h₀) → h₀ ≠ t := by
    intro j₀ h₀ hj₀ hc
    subst hc
    exact absurd (inv.refsValid j₀ h₀ hj₀).1 (lt_irrefl h₀)
  refine ⟨?_, ?_, ?_, ?_, ?_, ?_⟩
  · intro j₀ h₀ hj₀
    by_cases hx : j₀ = j
    · subst hx
      rw [hset_self] at hj₀
      have ht : t = h₀ := Bucket.ref.inj (Option.some.inj hj₀)
      subst ht
      exact ⟨by omega, e, hbt⟩
    · rw [hset_ne j₀ hx] at hj₀
      obtain ⟨hlt₀, he₀⟩ := inv.refsValid j₀ h₀ hj₀
      exact ⟨by omega, he₀⟩
  · intro j₀ j₁ h₀ hj₀ hj₁
    by_cases hx0 : j₀ = j <;> by_cases hx1 : j₁ = j
    · rw [hx0, hx1]
    · subst hx0
      rw [hset_self] at hj₀
      have ht : t = h₀ := Bucket.ref.inj (Option.some.inj hj₀)
      rw [hset_ne j₁ hx1] at hj₁
      rw [← ht] at hj₁
      exact absurd rfl (htfresh j₁ t hj₁)
    · subst hx1
      rw [hset_self] at hj₁
      have ht : t = h₀ := Bucket.ref.inj (Option.some.inj hj₁)
      rw [hset_ne j₀ hx0] at hj₀
      rw [← ht] at hj₀
      exact absurd rfl (htfresh j₀ t hj₀)
    · rw [hset_ne j₀ hx0] at hj₀
      rw [hset_ne j₁ hx1] at hj₁
      exact inv.refsInj j₀ j₁ h₀ hj₀ hj₁
  · intro h₀ e₀ hht hse
    by_cases hh0 : h₀ = t
    · subst hh0
      exact ⟨j, hset_self⟩
    · have hlt₀ : h₀ < t := by omega
      obtain ⟨j₀, hj₀⟩ := inv.liveRef h₀ e₀ hlt₀ hse
      have hj0ne : j₀ ≠ j := by
        intro hc
        subst hc
        rw [hjfree] at hj₀
        exact absurd hj₀ (by simp)
      exact ⟨j₀, by rw [hset_ne j₀ hj0ne]; exact hj₀⟩
  · intro j₀
    by_cases hx : j₀ = j
    · subst hx
      rw [hset_self]
      simp
    · rw [hset_ne j₀ hx]
      exact inv.noTomb j₀
  · intro j₀ h₀ e₀ hj₀ hse d hd
    rw [List.length_set] at hd
    intro hemp
    have hemp' := set_ref_not_empty hemp
    rw [List.length_set] at hemp'
    by_cases hx : j₀ = j
    · subst hx
      rw [hset_self] at hj₀
      have ht : t = h₀ := Bucket.ref.inj (Option.some.inj hj₀)
      subst ht
      rw [hbt] at hse
      have he : e = e₀ := Option.some.inj (Option.some.inj hse)
      subst he
      rw [hdistj] at hd
      obtain ⟨hr, hrr⟩ := hD5 d (Nat.zero_le d) hd
      rw [hrr] at hemp'
      exact absurd hemp' (by simp)
    · rw [hset_ne j₀ hx] at hj₀
      exact inv.reach j₀ h₀ e₀ hj₀ hse d hd hemp'
  · have hcnt : (idx.set j (Bucket.ref t)).countP Bucket.isRef =
        idx.countP Bucket.isRef + 1 :=
      countP_set_incr idx Bucket.isRef j Bucket.empty (Bucket.ref t) hjfree rfl rfl
    rw [hcnt, inv.refCount, List.take_succ, hbt]
    simp [List.countP_append]

theorem reinsertAll_inv {K T : Type} (hf : K → Nat)
    (st : List (Option (Entry K T))) (idx0 : List Bucket)
    (hlen : 0 < idx0.length)
    (hfree : st.countP (fun o => o.isSome) < idx0.length)
    (hinit : ReinsertInv hf st idx0 0) :
    ∀ t, ReinsertInv hf st (HashMapRep.reinsertAll hf st idx0 t) t := by
  intro t
  induction t with
  | zero => exact hinit
  | succ t ih =>
    have hL : (HashMapRep.reinsertAll hf st idx0 t).length = idx0.length :=
      reinsertAll_length hf st idx0 t
    rw [HashMapRep.reinsertAll]
    cases hbt : st[t]? with
    | none => exact ih.extend_dead (Or.inl hbt)
    | some oe =>
      cases oe with
      | none => exact ih.extend_dead (Or.inr hbt)
      | some e =>
        cases hpf : probeFree (HashMapRep.reinsertAll hf st idx0 t)
            (hf e.key % (HashMapRep.reinsertAll hf st idx0 t).length) 0
            (HashMapRep.reinsertAll hf st idx0 t).length with
        | none =>
          exfalso
          have hcnt : (HashMapRep.reinsertAll hf st idx0 t).countP Bucket.isRef <
              (HashMapRep.reinsertAll hf st idx0 t).length := by
            rw [ih.refCount, hL]
            calc (st.take t).countP (fun o => o.isSome)
                ≤ st.countP (fun o => o.isSome) := countP_take_le st _ t
              _ < idx0.length := hfree
          exact probeFree_total (HashMapRep.reinsertAll hf st idx0 t) _
            (by omega) hcnt (Nat.mod_lt _ (by omega)) hpf
        | some j =>
          simp only [hbt, hpf]
          exact ih.extend_live e hbt (by omega) j hpf

theorem grow_index_length {K T : Type} (hf : K → Nat) (m : HashMapRep K T) :
    (HashMapRep.grow hf m).index.length = 2 * m.index.length := by
  show (HashMapRep.reinsertAll hf m.store
    (List.replicate (2 * m.index.length) Bucket.empty) m.store.length).length = _
  rw [reinsertAll_length]
  simp

theorem wf_grow {K T : Type} (hf : K → Nat) (eqf : K → K → Bool)
    (m : HashMapRep K T) (hm : Wf hf eqf m) :
    Wf hf eqf (HashMapRep.grow hf m) := by
  have hcap := hm.capPos
  have hlen0 : 0 < (List.replicate (2 * m.index.length) Bucket.empty).length := by
    simp
    omega
  have hfree : m.store.countP (fun o => o.isSome) <
      (List.replicate (2 * m.index.length) Bucket.empty).length := by
    rw [hm.countLive]
    simp
    have := hm.countLe
    omega
  have hinit : ReinsertInv hf m.store
      (List.replicate (2 * m.index.length) Bucket.empty) 0 := by
    refine ⟨?_, ?_, ?_, ?_, ?_, ?_⟩
    · intro j h hj
      exact absurd (eq_of_getElem_replicate hj) (by simp)
    · intro j j' h hj hj'
      exact absurd (eq_of_getElem_replicate hj) (by simp)
    · intro h e hht hse
      exact absurd hht (Nat.not_lt_zero h)
    · intro j hc
      exact absurd (eq_of_getElem_replicate hc) (by simp)
    · intro j h e hj
      exact absurd (eq_of_getElem_replicate hj) (by simp)
    · simp only [List.take_zero, List.countP_nil]
      rw [List.countP_eq_zero]
      intro b hb
      rw [List.eq_of_mem_replicate hb]
      simp [Bucket.isRef]
  have hinv := reinsertAll_inv hf m.store
    (List.replicate (2 * m.index.length) Bucket.empty) hlen0 hfree hinit
    m.store.length
  have hLL : (HashMapRep.reinsertAll hf m.store
      (List.replicate (2 * m.index.length) Bucket.empty)
      m.store.length).length = 2 * m.index.length := by
    rw [reinsertAll_length]
    simp
  refine ⟨?_, ?_, ?_, ?_, ?_, ?_, ?_, ?_, ?_⟩
  · show 0 < (HashMapRep.reinsertAll hf m.store
      (List.replicate (2 * m.index.length) Bucket.empty) m.store.length).length
    rw [hLL]
    omega
  · intro j h hj
    exact (hinv.refsValid j h hj).2
  · exact hinv.refsInj
  · intro h e hse
    exact hinv.liveRef h e (lt_of_getElem_some hse) hse
  · exact hm.uniq
  · exact hinv.reach
  · exact hm.countLive
  · show (HashMapRep.reinsertAll hf m.store
      (List.replicate (2 * m.index.length) Bucket.empty)
      m.store.length).countP Bucket.isRef = m.count
    rw [hinv.refCount, List.take_length, hm.countLive]
  · show m.count ≤ (HashMapRep.reinsertAll hf m.store
      (List.replicate (2 * m.index.length) Bucket.empty) m.store.length).length
    rw [hLL]
    have := hm.countLe
    omega

end req

end HPHP

/-! ### Lookup completeness under the invariant, and the fresh-insert path -/

namespace HPHP

namespace req

open HashMapRep

theorem findSlot_ne_none_of_mem {T : Type} (m : HashMapRep String T)
    (hm : Wf hphp_string_hash hphp_string_isame m) (k : String) (h : Nat)
    (e : Entry String T) (hse : m.store[h]? = some (some e))
    (hk : hphp_string_isame k e.key = true) :
    findSlot hphp_string_hash hphp_string_isame m k ≠ none := by
  obtain ⟨j, hj⟩ := hm.liveRef h e hse
  unfold findSlot
  rw [hash_eq_of_isame hk]
  exact probeFind_complete hphp_string_isame m.index m.store k _ j h e
    (fun j' h' hj' => hm.refsValid j' h' hj') hj hse hk
    (hm.reach j h e hj hse) (Nat.mod_lt _ hm.capPos)

theorem not_mem_of_findSlot_none {T : Type} (m : HashMapRep String T)
    (hm : Wf hphp_string_hash hphp_string_isame m) (k : String)
    (hfs : findSlot hphp_string_hash hphp_string_isame m k = none) :
    ∀ (h : Nat) (e : Entry String T), m.store[h]? = some (some e) →
      hphp_string_isame k e.key = false := by
  intro h e hse
  cases hks : hphp_string_isame k e.key
  · rfl
  · exact absurd hfs (findSlot_ne_none_of_mem m hm k h e hse hks)

theorem find_eq_some_of_mem {T : Type} (m : HashMapRep String T)
    (hm : Wf hphp_string_hash hphp_string_isame m) (k : String) (h : Nat)
    (e : Entry String T) (hse : m.store[h]? = some (some e))
    (hk : hphp_string_isame k e.key = true) :
    find hphp_string_hash hphp_string_isame m k = some e := by
  cases hfs : findSlot hphp_string_hash hphp_string_isame m k with
  | none => exact absurd hfs (findSlot_ne_none_of_mem m hm k h e hse hk)
  | some x =>
    obtain ⟨j', h', e'⟩ := x
    obtain ⟨hj', hh', hk'⟩ := findSlot_sound _ _ m k j' h' e' hfs
    have hkk : hphp_string_isame e'.key e.key = true := by
      rw [isame_iff] at hk hk' ⊢
      rw [← hk']
      exact hk
    have hhe : h' = h := hm.uniq h' h e' e hh' hse hkk
    subst hhe
    rw [hse] at hh'
    have hee : e = e' := Option.some.inj (Option.some.inj hh')
    unfold find
    rw [hfs]
    show some e' = some e
    rw [hee]

theorem insert_fresh_eq {T : Type} (m : HashMapRep String T)
    (hm : Wf hphp_string_hash hphp_string_isame m) (k : String) (v : T)
    (hfs : findSlot hphp_string_hash hphp_string_isame m k = none) :
    ∃ (m2 : HashMapRep String T) (j : Nat),
      Wf hphp_string_hash hphp_string_isame m2 ∧
      m2.store = m.store ∧ m2.count = m.count ∧
      probeFree m2.index (hphp_string_hash k % m2.index.length) 0
        m2.index.length = some j ∧
      m2.count + 1 ≤ m2.index.length ∧
      insert_or_assign hphp_string_hash hphp_string_isame m k v =
        { store := m2.store ++ [some { key := k, value := v }]
          index := m2.index.set j (Bucket.ref m2.store.length)
          count := m2.count + 1 } := by
  set m2 := if 4 * (m.count + 1) > 3 * m.index.length
    then grow hphp_string_hash m else m with hm2def
  have hwf2 : Wf hphp_string_hash hphp_string_isame m2 := by
    rw [hm2def]
    by_cases hc : 4 * (m.count + 1) > 3 * m.index.length
    · rw [if_pos hc]
      exact wf_grow _ _ m hm
    · rw [if_neg hc]
      exact hm
  have hst2 : m2.store = m.store := by
    rw [hm2def]
    by_cases hc : 4 * (m.count + 1) > 3 * m.index.length
    · rw [if_pos hc]
      rfl
    · rw [if_neg hc]
  have hc2 : m2.count = m.count := by
    rw [hm2def]
    by_cases hc : 4 * (m.count + 1) > 3 * m.index.length
    · rw [if_pos hc]
      rfl
    · rw [if_neg hc]
  have hlt : m2.count + 1 ≤ m2.index.length := by
    rw [hm2def]
    by_cases hc : 4 * (m.count + 1) > 3 * m.index.length
    · rw [if_pos hc]
      rw [grow_count, grow_index_length]
      have h1 := hm.countLe
      have h2 := hm.capPos
      omega
    · rw [if_neg hc]
      have h2 := hm.capPos
      omega
  have hpfex : ∃ j, probeFree m2.index
      (hphp_string_hash k % m2.index.length) 0 m2.index.length = some j := by
    cases hpf0 : probeFree m2.index (hphp_string_hash k % m2.index.length) 0
        m2.index.length with
    | some j => exact ⟨j, rfl⟩
    | none =>
      exfalso
      refine probeFree_total m2.index _ hwf2.capPos ?_
        (Nat.mod_lt _ hwf2.capPos) hpf0
      rw [hwf2.refCount]
      omega
  obtain ⟨j, hpf⟩ := hpfex
  refine ⟨m2, j, hwf2, hst2, hc2, hpf, hlt, ?_⟩
  unfold insert_or_assign
  simp only [hfs]
  rw [← hm2def]
  simp only [hpf]

end req

end HPHP

namespace HPHP

namespace req

open HashMapRep

theorem wf_mk {K T : Type} (hf : K → Nat) (eqf : K → K → Bool)
    (st : List (Option (Entry K T))) (idx : List Bucket) (c : Nat)
    (capPos : 0 < idx.length)
    (refsValid : ∀ (j h : Nat), idx[j]? = some (Bucket.ref h) →
      ∃ e : Entry K T, st[h]? = some (some e))
    (refsInj : ∀ (j j' h : Nat), idx[j]? = some (Bucket.ref h) →
      idx[j']? = some (Bucket.ref h) → j = j')
    (liveRef : ∀ (h : Nat) (e : Entry K T), st[h]? = some (some e) →
      ∃ j : Nat, idx[j]? = some (Bucket.ref h))
    (uniq : ∀ (h h' : Nat) (e e' : Entry K T), st[h]? = some (some e) →
      st[h']? = some (some e') → eqf e.key e'.key = true → h = h')
    (reach : ∀ (j h : Nat) (e : Entry K T), idx[j]? = some (Bucket.ref h) →
      st[h]? = some (some e) →
      ∀ d, d < dist idx.length (hf e.key % idx.length) j →
        idx[(hf e.key % idx.length + d) % idx.length]? ≠ some Bucket.empty)
    (countLive : st.countP (fun o => o.isSome) = c)
    (refCount : idx.countP Bucket.isRef = c)
    (countLe : c ≤ idx.length) :
    Wf hf eqf { store := st, index := idx, count := c } :=
  ⟨capPos, refsValid, refsInj, liveRef, uniq, reach, countLive, refCount, countLe⟩

theorem wf_fresh_insert {T : Type} (m2 : HashMapRep String T)
    (hm2 : Wf hphp_string_hash hphp_string_isame m2) (k : String) (v : T)
    (j : Nat)
    (hpf : probeFree m2.index (hphp_string_hash k % m2.index.length) 0
      m2.index.length = some j)
    (hnomem : ∀ (h : Nat) (e : Entry String T), m2.store[h]? = some (some e) →
      hphp_string_isame k e.key = false)
    (hcnt1 : m2.count + 1 ≤ m2.index.length) :
    Wf hphp_string_hash hphp_string_isame
      { store := m2.store ++ [some { key := k, value := v }]
        index := m2.index.set j (Bucket.ref m2.store.length)
        count := m2.count + 1 } := by
  have hlen : 0 < m2.index.length := hm2.capPos
  obtain ⟨D, hD1, hD2, hD3, hD45, hD5⟩ :=
    probeFree_sound m2.index (hphp_string_hash k % m2.index.length)
      m2.index.length 0 j hpf
  have hs : hphp_string_hash k % m2.index.length < m2.index.length :=
    Nat.mod_lt _ hlen
  have hjlt : j < m2.index.length := by
    rw [hD3]
    exact Nat.mod_lt _ hlen
  have hDlt : D < m2.index.length := by omega
  have hdistj : dist m2.index.length (hphp_string_hash k % m2.index.length) j
      = D := by
    rw [hD3]
    exact dist_probe hs hDlt
  have hjnotref : Bucket.isRef <$> m2.index[j]? = some false := by
    rcases hD45 with hfr | hfr <;> rw [hfr] <;> rfl
  have hset_self : (m2.index.set j (Bucket.ref m2.store.length))[j]? =
      some (Bucket.ref m2.store.length) :=
    getElem_set_self m2.index j _ hjlt
  have hset_ne : ∀ x : Nat, x ≠ j →
      (m2.index.set j (Bucket.ref m2.store.length))[x]? = m2.index[x]? :=
    fun x hx => List.getElem?_set_ne (fun hc => hx hc.symm)
  have hslotfresh : ∀ (j₀ h₀ : Nat), m2.index[j₀]? = some (Bucket.ref h₀) →
      h₀ ≠ m2.store.length := by
    intro j₀ h₀ hj₀ hc
    obtain ⟨e₀, he₀⟩ := hm2.refsValid j₀ h₀ hj₀
    have := lt_of_getElem_some he₀
    omega
  have hstore_new : (m2.store ++ [some { key := k, value := v }])[m2.store.length]? = some (some ({ key := k, value := v } : Entry String T)) :=
    List.getElem?_concat_length m2.store _
  have hstore_old : ∀ h₀ : Nat, h₀ < m2.store.length →
      (m2.store ++ [some { key := k, value := v }])[h₀]? = m2.store[h₀]? :=
    fun h₀ hlt₀ => List.getElem?_append_left hlt₀
  have hstore_inv : ∀ (h₀ : Nat) (e₀ : Entry String T),
      (m2.store ++ [some { key := k, value := v }])[h₀]? = some (some e₀) →
      (h₀ < m2.store.length ∧ m2.store[h₀]? = some (some e₀)) ∨
        (h₀ = m2.store.length ∧ e₀ = { key := k, value := v }) := by
    intro h₀ e₀ hs₀
    rcases getElem_append_some hs₀ with ⟨hlt₀, hold⟩ | ⟨heq₀, hval⟩
    · exact Or.inl ⟨hlt₀, hold⟩
    · exact Or.inr ⟨heq₀, Option.some.inj hval⟩
  refine wf_mk _ _ _ _ _ ?_ ?_ ?_ ?_ ?_ ?_ ?_ ?_ ?_
  · rw [List.length_set]
    exact hlen
  · intro j₀ h₀ hj₀
    by_cases hx : j₀ = j
    · subst hx
      rw [hset_self] at hj₀
      have hn : m2.store.length = h₀ := Bucket.ref.inj (Option.some.inj hj₀)
      subst hn
      exact ⟨_, hstore_new⟩
    · rw [hset_ne j₀ hx] at hj₀
      obtain ⟨e₀, he₀⟩ := hm2.refsValid j₀ h₀ hj₀
      exact ⟨e₀, by rw [hstore_old h₀ (lt_of_getElem_some he₀)]; exact he₀⟩
  · intro j₀ j₁ h₀ hj₀ hj₁
    by_cases hx0 : j₀ = j <;> by_cases hx1 : j₁ = j
    · rw [hx0, hx1]
    · subst hx0
      rw [hset_self] at hj₀
      have hn : m2.store.length = h₀ := Bucket.ref.inj (Option.some.inj hj₀)
      rw [hset_ne j₁ hx1] at hj₁
      rw [← hn] at hj₁
      exact absurd rfl (hslotfresh j₁ m2.store.length hj₁)
    · subst hx1
      rw [hset_self] at hj₁
      have hn : m2.store.length = h₀ := Bucket.ref.inj (Option.some.inj hj₁)
      rw [hset_ne j₀ hx0] at hj₀
      rw [← hn] at hj₀
      exact absurd rfl (hslotfresh j₀ m2.store.length hj₀)
    · rw [hset_ne j₀ hx0] at hj₀
      rw [hset_ne j₁ hx1] at hj₁
      exact hm2.refsInj j₀ j₁ h₀ hj₀ hj₁
  · intro h₀ e₀ hs₀
    rcases hstore_inv h₀ e₀ hs₀ with ⟨hlt₀, hold⟩ | ⟨heq₀, hval⟩
    · obtain ⟨j₀, hj₀⟩ := hm2.liveRef h₀ e₀ hold
      have hj0ne : j₀ ≠ j := by
        intro hc
        subst hc
        rw [hj₀] at hjnotref
        exact absurd (Option.some.inj hjnotref) (by simp [Bucket.isRef])
      exact ⟨j₀, by rw [hset_ne j₀ hj0ne]; exact hj₀⟩
    · subst heq₀
      exact ⟨j, hset_self⟩
  · intro h₀ h₁ e₀ e₁ hs₀ hs₁ hke
    rcases hstore_inv h₀ e₀ hs₀ with ⟨hlt₀, hold₀⟩ | ⟨heq₀, hval₀⟩ <;>
      rcases hstore_inv h₁ e₁ hs₁ with ⟨hlt₁, hold₁⟩ | ⟨heq₁, hval₁⟩
    · exact hm2.uniq h₀ h₁ e₀ e₁ hold₀ hold₁ hke
    · exfalso
      subst hval₁
      have hsym : hphp_string_isame k e₀.key = true := by
        rw [← isame_symm]
        exact hke
      rw [hnomem h₀ e₀ hold₀] at hsym
      exact Bool.noConfusion hsym
    · exfalso
      subst hval₀
      have : hphp_string_isame k e₁.key = true := hke
      rw [hnomem h₁ e₁ hold₁] at this
      exact Bool.noConfusion this
    · rw [heq₀, heq₁]
  · intro j₀ h₀ e₀ hj₀ hs₀ d hd
    rw [List.length_set] at hd
    intro hemp
    have hemp' := set_ref_not_empty hemp
    rw [List.length_set] at hemp'
    by_cases hx : j₀ = j
    · subst hx
      rw [hset_self] at hj₀
      have hn : m2.store.length = h₀ := Bucket.ref.inj (Option.some.inj hj₀)
      subst hn
      rw [hstore_new] at hs₀
      have he₀ : ({ key := k, value := v } : Entry String T) = e₀ :=
        Option.some.inj (Option.some.inj hs₀)
      rw [← he₀] at hd hemp'
      have hknk : ({ key := k, value := v } : Entry String T).key = k := rfl
      rw [hknk] at hd hemp'
      rw [hdistj] at hd
      obtain ⟨hr, hrr⟩ := hD5 d (Nat.zero_le d) hd
      rw [hrr] at hemp'
      exact absurd hemp' (by simp)
    · rw [hset_ne j₀ hx] at hj₀
      rcases hstore_inv h₀ e₀ hs₀ with ⟨hlt₀, hold₀⟩ | ⟨heq₀, hval₀⟩
      · exact hm2.reach j₀ h₀ e₀ hj₀ hold₀ d hd hemp'
      · subst heq₀
        exact absurd rfl (hslotfresh j₀ m2.store.length hj₀)
  · rw [List.countP_append, hm2.countLive]
    rfl
  · rcases hD45 with hfr | hfr
    · rw [countP_set_incr m2.index Bucket.isRef j Bucket.empty
        (Bucket.ref m2.store.length) hfr rfl rfl, hm2.refCount]
    · rw [countP_set_incr m2.index Bucket.isRef j Bucket.tomb
        (Bucket.ref m2.store.length) hfr rfl rfl, hm2.refCount]
  · rw [List.length_set]
    exact hcnt1

theorem wf_insert {T : Type} (m : HashMapRep String T)
    (hm : Wf hphp_string_hash hphp_string_isame m) (k : String) (v : T) :
    Wf hphp_string_hash hphp_string_isame
      (insert_or_assign hphp_string_hash hphp_string_isame m k v) := by
  cases hfs : findSlot hphp_string_hash hphp_string_isame m k with
  | some x =>
    obtain ⟨j, h, e⟩ := x
    obtain ⟨hj, hh, hkey⟩ := findSlot_sound _ _ m k j h e hfs
    rw [insert_overwrite _ _ m k v j h e hfs]
    have hmap : ∀ (h₀ : Nat) (e₀ : Entry String T),
        (m.store.set h (some { key := e.key, value := v }))[h₀]? =
          some (some e₀) →
        ∃ e₁ : Entry String T, m.store[h₀]? = some (some e₁) ∧
          e₁.key = e₀.key := by
      intro h₀ e₀ hs₀
      by_cases hx : h₀ = h
      · subst hx
        rw [getElem_set_self m.store h₀ _ (lt_of_getElem_some hh)] at hs₀
        have he₀ : ({ key := e.key, value := v } : Entry String T) = e₀ :=
          Option.some.inj (Option.some.inj hs₀)
        exact ⟨e, hh, by rw [← he₀]⟩
      · rw [List.getElem?_set_ne (fun hc => hx hc.symm)] at hs₀
        exact ⟨e₀, hs₀, rfl⟩
    have hmap2 : ∀ (h₀ : Nat) (e₁ : Entry String T),
        m.store[h₀]? = some (some e₁) →
        ∃ e₀ : Entry String T,
          (m.store.set h (some { key := e.key, value := v }))[h₀]? =
            some (some e₀) := by
      intro h₀ e₁ hs₁
      by_cases hx : h₀ = h
      · subst hx
        exact ⟨_, getElem_set_self m.store h₀ _ (lt_of_getElem_some hh)⟩
      · exact ⟨e₁, by
          rw [List.getElem?_set_ne (fun hc => hx hc.symm)]
          exact hs₁⟩
    refine ⟨hm.capPos, ?_, hm.refsInj, ?_, ?_, ?_, ?_, hm.refCount, hm.countLe⟩
    · intro j₀ h₀ hj₀
      obtain ⟨e₁, he₁⟩ := hm.refsValid j₀ h₀ hj₀
      exact hmap2 h₀ e₁ he₁
    · intro h₀ e₀ hs₀
      obtain ⟨e₁, he₁, hkey₁⟩ := hmap h₀ e₀ hs₀
      exact hm.liveRef h₀ e₁ he₁
    · intro h₀ h₁ e₀ e₁ hs₀ hs₁ hke
      obtain ⟨f₀, hf₀, hk₀⟩ := hmap h₀ e₀ hs₀
      obtain ⟨f₁, hf₁, hk₁⟩ := hmap h₁ e₁ hs₁
      refine hm.uniq h₀ h₁ f₀ f₁ hf₀ hf₁ ?_
      rw [hk₀, hk₁]
      exact hke
    · intro j₀ h₀ e₀ hj₀ hs₀ d
      obtain ⟨e₁, he₁, hkey₁⟩ := hmap h₀ e₀ hs₀
      have hre := hm.reach j₀ h₀ e₁ hj₀ he₁ d
      rw [hkey₁] at hre
      exact hre
    · show (m.store.set h (some { key := e.key, value := v })).countP
        (fun o => o.isSome) = m.count
      rw [countP_set_congr m.store (fun o => o.isSome) h (some e)
        (some { key := e.key, value := v }) hh rfl]
      exact hm.countLive
  | none =>
    obtain ⟨m2, j, hwf2, hst2, hc2, hpf, hlt, heq⟩ :=
      insert_fresh_eq m hm k v hfs
    rw [heq]
    refine wf_fresh_insert m2 hwf2 k v j hpf ?_ hlt
    intro h e hse
    rw [hst2] at hse
    exact not_mem_of_findSlot_none m hm k hfs h e hse
end req

end HPHP

/-! ### Size accounting and key membership under insertion -/

namespace HPHP

theorem isame_trans {a b c : String} (hab : hphp_string_isame a b = true)
    (hbc : hphp_string_isame b c = true) : hphp_string_isame a c = true := by
  rw [isame_iff] at hab hbc ⊢
  rw [hab]
  exact hbc

namespace req

open HashMapRep

theorem insert_count_found {K T : Type} (hf : K → Nat) (eqf : K → K → Bool)
    (m : HashMapRep K T) (k : K) (v : T) (j h : Nat) (e : Entry K T)
    (hfs : findSlot hf eqf m k = some (j, h, e)) :
    (insert_or_assign hf eqf m k v).count = m.count := by
  rw [insert_overwrite hf eqf m k v j h e hfs]

theorem insert_count_fresh {T : Type} (m : HashMapRep String T)
    (hm : Wf hphp_string_hash hphp_string_isame m) (k : String) (v : T)
    (hfs : findSlot hphp_string_hash hphp_string_isame m k = none) :
    (insert_or_assign hphp_string_hash hphp_string_isame m k v).count =
      m.count + 1 := by
  obtain ⟨m2, j, hwf2, hst2, hc2, hpf, hlt, heq⟩ := insert_fresh_eq m hm k v hfs
  rw [heq]
  show m2.count + 1 = m.count + 1
  rw [hc2]

theorem memKey_insert_iff {T : Type} (m : HashMapRep String T)
    (hm : Wf hphp_string_hash hphp_string_isame m) (k : String) (v : T)
    (k' : String) :
    memKey hphp_string_isame
        (insert_or_assign hphp_string_hash hphp_string_isame m k v) k' ↔
      (memKey hphp_string_isame m k' ∨ hphp_string_isame k' k = true) := by
  cases hfs : findSlot hphp_string_hash hphp_string_isame m k with
  | some x =>
    obtain ⟨j, h, e⟩ := x
    obtain ⟨hj, hh, hkey⟩ := findSlot_sound _ _ m k j h e hfs
    rw [insert_overwrite _ _ m k v j h e hfs]
    constructor
    · rintro ⟨h₀, e₀, hs₀, hk₀⟩
      by_cases hx : h₀ = h
      · subst hx
        rw [getElem_set_self m.store h₀ _ (lt_of_getElem_some hh)] at hs₀
        have he₀ : ({ key := e.key, value := v } : Entry String T) = e₀ :=
          Option.some.inj (Option.some.inj hs₀)
        rw [← he₀] at hk₀
        exact Or.inl ⟨h₀, e, hh, hk₀⟩
      · rw [List.getElem?_set_ne (fun hc => hx hc.symm)] at hs₀
        exact Or.inl ⟨h₀, e₀, hs₀, hk₀⟩
    · rintro (⟨h₀, e₀, hs₀, hk₀⟩ | hkk)
      · by_cases hx : h₀ = h
        · subst hx
          rw [hh] at hs₀
          have he₀ : e = e₀ := Option.some.inj (Option.some.inj hs₀)
          refine ⟨h₀, { key := e.key, value := v },
            getElem_set_self m.store h₀ _ (lt_of_getElem_some hh), ?_⟩
          rw [he₀]
          exact hk₀
        · exact ⟨h₀, e₀, by
            rw [List.getElem?_set_ne (fun hc => hx hc.symm)]
            exact hs₀, hk₀⟩
      · refine ⟨h, { key := e.key, value := v },
          getElem_set_self m.store h _ (lt_of_getElem_some hh), ?_⟩
        exact isame_trans hkk hkey
  | none =>
    obtain ⟨m2, j, hwf2, hst2, hc2, hpf, hlt, heq⟩ := insert_fresh_eq m hm k v hfs
    rw [heq]
    constructor
    · rintro ⟨h₀, e₀, hs₀, hk₀⟩
      have hs₀' : (m2.store ++ [some { key := k, value := v }])[h₀]? =
          some (some e₀) := hs₀
      rcases getElem_append_some hs₀' with ⟨hlt₀, hold⟩ | ⟨heq₀, hval⟩
      · rw [hst2] at hold
        exact Or.inl ⟨h₀, e₀, hold, hk₀⟩
      · have he₀ : e₀ = { key := k, value := v } := Option.some.inj hval
        rw [he₀] at hk₀
        exact Or.inr hk₀
    · rintro (⟨h₀, e₀, hs₀, hk₀⟩ | hkk)
      · refine ⟨h₀, e₀, ?_, hk₀⟩
        show (m2.store ++ [some { key := k, value := v }])[h₀]? = some (some e₀)
        rw [hst2]
        rw [List.getElem?_append_left (lt_of_getElem_some hs₀)]
        exact hs₀
      · refine ⟨m2.store.length, { key := k, value := v }, ?_, hkk⟩
        exact List.getElem?_concat_length m2.store _

end req

end HPHP

namespace HPHP

namespace req

open HashMapRep

theorem find_insert_found {T : Type} (m : HashMapRep String T)
    (hm : Wf hphp_string_hash hphp_string_isame m) (k : String) (v : T)
    (j h : Nat) (e : Entry String T)
    (hfs : findSlot hphp_string_hash hphp_string_isame m k = some (j, h, e))
    (k' : String) (hk' : hphp_string_isame k' k = true) :
    find hphp_string_hash hphp_string_isame
        (insert_or_assign hphp_string_hash hphp_string_isame m k v) k' =
      some { key := e.key, value := v } := by
  obtain ⟨hj, hh, hkey⟩ := findSlot_sound _ _ m k j h e hfs
  have hw := wf_insert m hm k v
  rw [insert_overwrite _ _ m k v j h e hfs] at hw ⊢
  refine find_eq_some_of_mem _ hw k' h { key := e.key, value := v } ?_ ?_
  · show (m.store.set h (some { key := e.key, value := v }))[h]? =
      some (some { key := e.key, value := v })
    exact getElem_set_self m.store h _ (lt_of_getElem_some hh)
  · exact isame_trans hk' hkey

theorem find_insert_fresh {T : Type} (m : HashMapRep String T)
    (hm : Wf hphp_string_hash hphp_string_isame m) (k : String) (v : T)
    (hfs : findSlot hphp_string_hash hphp_string_isame m k = none)
    (k' : String) (hk' : hphp_string_isame k' k = true) :
    find hphp_string_hash hphp_string_isame
        (insert_or_assign hphp_string_hash hphp_string_isame m k v) k' =
      some { key := k, value := v } := by
  obtain ⟨m2, j, hwf2, hst2, hc2, hpf, hlt, heq⟩ := insert_fresh_eq m hm k v hfs
  have hw := wf_insert m hm k v
  rw [heq] at hw ⊢
  refine find_eq_some_of_mem _ hw k' m2.store.length { key := k, value := v }
    ?_ hk'
  show (m2.store ++ [some { key := k, value := v }])[m2.store.length]? =
    some (some { key := k, value := v })
  exact List.getElem?_concat_length m2.store _

theorem find_insert_value {T : Type} (m : HashMapRep String T)
    (hm : Wf hphp_string_hash hphp_string_isame m) (k : String) (v : T)
    (k' : String) (hk' : hphp_string_isame k' k = true) :
    ∃ e : Entry String T,
      find hphp_string_hash hphp_string_isame
          (insert_or_assign hphp_string_hash hphp_string_isame m k v) k' =
        some e ∧ e.value = v := by
  cases hfs : findSlot hphp_string_hash hphp_string_isame m k with
  | some x =>
    obtain ⟨j, h, e⟩ := x
    exact ⟨{ key := e.key, value := v },
      find_insert_found m hm k v j h e hfs k' hk', rfl⟩
  | none =>
    exact ⟨{ key := k, value := v },
      find_insert_fresh m hm k v hfs k' hk', rfl⟩

end req

end HPHP

namespace HPHP

namespace req

open HashMapRep

theorem insertList_spec {T : Type} :
    ∀ (ps : List (String × T)) (m : HashMapRep String T) (seen : List String),
      Wf hphp_string_hash hphp_string_isame m →
      (∀ k' : String, memKey hphp_string_isame m k' ↔
        (seen.any fun s0 => hphp_string_isame k' s0) = true) →
      Wf hphp_string_hash hphp_string_isame
          (insertList hphp_string_hash hphp_string_isame m ps) ∧
      (∀ k' : String,
        memKey hphp_string_isame
            (insertList hphp_string_hash hphp_string_isame m ps) k' ↔
          ((seen ++ ps.map Prod.fst).any fun s0 =>
            hphp_string_isame k' s0) = true) ∧
      size (insertList hphp_string_hash hphp_string_isame m ps) +
          dupCount hphp_string_isame seen (ps.map Prod.fst) =
        size m + ps.length := by
  intro ps
  induction ps with
  | nil =>
    intro m seen hm hseen
    refine ⟨hm, ?_, ?_⟩
    · intro k'
      simpa using hseen k'
    · show size m + dupCount hphp_string_isame seen [] = size m + 0
      rw [dupCount]
  | cons p rest ih =>
    obtain ⟨k, v⟩ := p
    intro m seen hm hseen
    have hm1 := wf_insert m hm k v
    have hmem1 : ∀ k' : String,
        memKey hphp_string_isame
            (insert_or_assign hphp_string_hash hphp_string_isame m k v) k' ↔
          ((k :: seen).any fun s0 => hphp_string_isame k' s0) = true := by
      intro k'
      rw [memKey_insert_iff m hm k v k', hseen k', List.any_cons]
      simp only [Bool.or_eq_true]
      tauto
    obtain ⟨hwf, hmem, hsize⟩ :=
      ih (insert_or_assign hphp_string_hash hphp_string_isame m k v)
        (k :: seen) hm1 hmem1
    have hstep : insertList hphp_string_hash hphp_string_isame m ((k, v) :: rest)
        = insertList hphp_string_hash hphp_string_isame
            (insert_or_assign hphp_string_hash hphp_string_isame m k v) rest :=
      rfl
    refine ⟨by rw [hstep]; exact hwf, ?_, ?_⟩
    · intro k'
      rw [hstep, hmem k']
      simp only [List.map_cons, List.any_append, List.any_cons,
        Bool.or_eq_true]
      tauto
    · rw [hstep]
      have hdc : dupCount hphp_string_isame seen (((k, v) :: rest).map Prod.fst)
          = (if (seen.any fun s0 => hphp_string_isame k s0) then 1 else 0) +
            dupCount hphp_string_isame (k :: seen) (rest.map Prod.fst) := by
        rw [List.map_cons, dupCount]
      rw [hdc]
      cases hfs : findSlot hphp_string_hash hphp_string_isame m k with
      | some x =>
        obtain ⟨j0, h0, e0⟩ := x
        have hc1 : size (insert_or_assign hphp_string_hash hphp_string_isame
            m k v) = size m := insert_count_found _ _ m k v j0 h0 e0 hfs
        have hmemk : memKey hphp_string_isame m k := by
          obtain ⟨hj0, hh0, hkey0⟩ := findSlot_sound _ _ m k j0 h0 e0 hfs
          exact ⟨h0, e0, hh0, hkey0⟩
        rw [if_pos ((hseen k).mp hmemk)]
        simp only [List.length_cons]
        omega
      | none =>
        have hc1 : size (insert_or_assign hphp_string_hash hphp_string_isame
            m k v) = size m + 1 := insert_count_fresh m hm k v hfs
        have hnot : ¬ memKey hphp_string_isame m k := by
          rintro ⟨h0, e0, hse0, hk0⟩
          rw [not_mem_of_findSlot_none m hm k hfs h0 e0 hse0] at hk0
          exact Bool.noConfusion hk0
        have hanyk : (seen.any fun s0 => hphp_string_isame k s0) = false := by
          cases hany : seen.any fun s0 => hphp_string_isame k s0
          · rfl
          · exact absurd ((hseen k).mpr hany) hnot
        rw [if_neg (by simp [hanyk])]
        simp only [List.length_cons]
        omega

theorem memKey_empty_iff {T : Type} (k' : String) :
    memKey hphp_string_isame (HashMapRep.empty String T) k' ↔
      (([] : List String).any fun s0 => hphp_string_isame k' s0) = true := by
  constructor
  · rintro ⟨h, e, hse, hk⟩
    have : (HashMapRep.empty String T).store = [] := rfl
    rw [this] at hse
    simp at hse
  · intro h
    simp at h

end req

end HPHP

/-! ### The claims -/

namespace HPHP

namespace req

open HashMapRep

/-- C1: Reference stability under unrelated insertion: a reference (stable
handle `hA`) to the value of an Entry `eA` stored in the map still reads the
original Entry after inserting any number of entries whose keys are not
case-insensitively equal to `eA`'s key — including insertions that trigger
index growth — and `grow` itself never touches the Entry storage, so insertion
of unrelated entries never relocates an existing Entry. -/
theorem stringimap_reference_stability {T : Type} (m : StringIMap T) (hA : Nat)
    (eA : Entry String T) (ps : List (String × T))
    (hstore : m.store[hA]? = some (some eA))
    (hunrel : ∀ p ∈ ps, hphp_string_isame p.1 eA.key = false) :
    (insertList hphp_string_hash hphp_string_isame m ps).store[hA]? =
        some (some eA) ∧
      ∀ (m' : StringIMap T), (grow hphp_string_hash m').store = m'.store := by
  refine ⟨?_, fun m' => grow_store hphp_string_hash m'⟩
  induction ps generalizing m with
  | nil => exact hstore
  | cons p rest ihp =>
    have hstep : insertList hphp_string_hash hphp_string_isame m (p :: rest) =
        insertList hphp_string_hash hphp_string_isame
          (insert_or_assign hphp_string_hash hphp_string_isame m p.1 p.2)
          rest := rfl
    rw [hstep]
    refine ihp _ ?_ ?_
    · exact insert_preserves_unrelated hphp_string_hash hphp_string_isame m
        p.1 p.2 hA eA hstore (hunrel p (List.mem_cons_self p rest))
    · intro q hq
      exact hunrel q (List.mem_cons_of_mem p hq)

theorem stringimap_reference_stability_witness :
    ((insertList hphp_string_hash hphp_string_isame
        (HashMapRep.empty HPHP.String Nat) [([97], 1)]).store[0]? =
          some (some { key := [97], value := 1 }) ∧
      (∀ p ∈ ([([98], 2), ([99], 3), ([100], 4), ([101], 5), ([102], 6),
          ([103], 7), ([104], 8)] : List (HPHP.String × Nat)),
        hphp_string_isame p.1
          ({ key := [97], value := 1 } : Entry HPHP.String Nat).key = false)) ∧
    (insertList hphp_string_hash hphp_string_isame
        (insertList hphp_string_hash hphp_string_isame
          (HashMapRep.empty HPHP.String Nat) [([97], 1)])
        [([98], 2), ([99], 3), ([100], 4), ([101], 5), ([102], 6), ([103], 7),
          ([104], 8)]).store[0]? = some (some { key := [97], value := 1 }) :=
  ⟨⟨by decide, by decide⟩,
    (stringimap_reference_stability
      (insertList hphp_string_hash hphp_string_isame
        (HashMapRep.empty HPHP.String Nat) [([97], 1)])
      0 { key := [97], value := 1 }
      [([98], 2), ([99], 3), ([100], 4), ([101], 5), ([102], 6), ([103], 7),
        ([104], 8)]
      (by decide) (by decide)).1⟩

/-- C2: Case-insensitive lookup equivalence: for case-insensitively equal keys
`k1`, `k2`, after `k1` is inserted into a well-formed map, `find k1` and
`find k2` return the same Entry (and that Entry exists); the same statement
instantiated with the keys swapped covers insertion of `k2`. -/
theorem stringimap_find_isame_equiv {T : Type} (m : StringIMap T)
    (hm : Wf hphp_string_hash hphp_string_isame m) (k1 k2 : String) (v : T)
    (h12 : hphp_string_isame k1 k2 = true) :
    find hphp_string_hash hphp_string_isame
        (insert_or_assign hphp_string_hash hphp_string_isame m k1 v) k1 =
      find hphp_string_hash hphp_string_isame
        (insert_or_assign hphp_string_hash hphp_string_isame m k1 v) k2 ∧
    ∃ e : Entry String T,
      find hphp_string_hash hphp_string_isame
        (insert_or_assign hphp_string_hash hphp_string_isame m k1 v) k1 =
        some e := by
  refine ⟨find_congr_isame _ h12, ?_⟩
  obtain ⟨e, he, -⟩ := find_insert_value m hm k1 v k1 (isame_refl k1)
  exact ⟨e, he⟩

theorem stringimap_find_isame_equiv_witness :
    (Wf hphp_string_hash hphp_string_isame
        (HashMapRep.empty HPHP.String Nat) ∧
      hphp_string_isame [70, 79, 79] [102, 111, 111] = true) ∧
    (find hphp_string_hash hphp_string_isame
        (insert_or_assign hphp_string_hash hphp_string_isame
          (HashMapRep.empty HPHP.String Nat) [70, 79, 79] 5) [70, 79, 79] =
      find hphp_string_hash hphp_string_isame
        (insert_or_assign hphp_string_hash hphp_string_isame
          (HashMapRep.empty HPHP.String Nat) [70, 79, 79] 5) [102, 111, 111] ∧
    ∃ e : Entry HPHP.String Nat,
      find hphp_string_hash hphp_string_isame
        (insert_or_assign hphp_string_hash hphp_string_isame
          (HashMapRep.empty HPHP.String Nat) [70, 79, 79] 5) [70, 79, 79] =
        some e) :=
  ⟨⟨wf_empty HPHP.String Nat hphp_string_hash hphp_string_isame, by decide⟩,
    stringimap_find_isame_equiv (HashMapRep.empty HPHP.String Nat)
      (wf_empty HPHP.String Nat hphp_string_hash hphp_string_isame)
      [70, 79, 79] [102, 111, 111] 5 (by decide)⟩

/-- C3: Overwrite-in-place on duplicate key: if the map contains key `k` (the
Entry `find` returns), then `insert_or_assign k v2` overwrites that Entry's
value in place at the same handle — the stable store keeps its length (no
Entry is allocated), the index and count are unchanged, and the previously
obtained reference (the handle into the stable store) now reads `v2` under the
retained key casing. -/
theorem stringimap_overwrite_in_place {T : Type} (m : StringIMap T)
    (k : String) (v2 : T) (e : Entry String T)
    (hfind : find hphp_string_hash hphp_string_isame m k = some e) :
    ∃ h : Nat,
      m.store[h]? = some (some e) ∧
      (insert_or_assign hphp_string_hash hphp_string_isame m k v2).store[h]? =
        some (some { key := e.key, value := v2 }) ∧
      (insert_or_assign hphp_string_hash hphp_string_isame m k
        v2).store.length = m.store.length ∧
      (insert_or_assign hphp_string_hash hphp_string_isame m k v2).index =
        m.index ∧
      (insert_or_assign hphp_string_hash hphp_string_isame m k v2).count =
        m.count := by
  unfold find at hfind
  cases hfs : findSlot hphp_string_hash hphp_string_isame m k with
  | none =>
    rw [hfs] at hfind
    exact absurd hfind (by simp)
  | some x =>
    obtain ⟨j, h, ex⟩ := x
    rw [hfs] at hfind
    have hex : ex = e := Option.some.inj hfind
    subst hex
    obtain ⟨hj, hh, hkey⟩ := findSlot_sound _ _ m k j h ex hfs
    refine ⟨h, hh, ?_, ?_, ?_, ?_⟩ <;>
      rw [insert_overwrite _ _ m k v2 j h ex hfs]
    · show (m.store.set h (some { key := ex.key, value := v2 }))[h]? =
        some (some { key := ex.key, value := v2 })
      exact getElem_set_self m.store h _ (lt_of_getElem_some hh)
    · show (m.store.set h (some { key := ex.key, value := v2 })).length =
        m.store.length
      exact List.length_set m.store h _

theorem stringimap_overwrite_in_place_witness :
    (find hphp_string_hash hphp_string_isame
        (insert_or_assign hphp_string_hash hphp_string_isame
          (HashMapRep.empty HPHP.String Nat) [107] 1) [107] =
      some { key := [107], value := 1 }) ∧
    (∃ h : Nat,
      (insert_or_assign hphp_string_hash hphp_string_isame
        (HashMapRep.empty HPHP.String Nat) [107] 1).store[h]? =
          some (some { key := [107], value := 1 }) ∧
      (insert_or_assign hphp_string_hash hphp_string_isame
        (insert_or_assign hphp_string_hash hphp_string_isame
          (HashMapRep.empty HPHP.String Nat) [107] 1) [107] 2).store[h]? =
        some (some { key := [107], value := 2 }) ∧
      (insert_or_assign hphp_string_hash hphp_string_isame
        (insert_or_assign hphp_string_hash hphp_string_isame
          (HashMapRep.empty HPHP.String Nat) [107] 1) [107] 2).store.length =
        (insert_or_assign hphp_string_hash hphp_string_isame
          (HashMapRep.empty HPHP.String Nat) [107] 1).store.length ∧
      (insert_or_assign hphp_string_hash hphp_string_isame
        (insert_or_assign hphp_string_hash hphp_string_isame
          (HashMapRep.empty HPHP.String Nat) [107] 1) [107] 2).index =
        (insert_or_assign hphp_string_hash hphp_string_isame
          (HashMapRep.empty HPHP.String Nat) [107] 1).index ∧
      (insert_or_assign hphp_string_hash hphp_string_isame
        (insert_or_assign hphp_string_hash hphp_string_isame
          (HashMapRep.empty HPHP.String Nat) [107] 1) [107] 2).count =
        (insert_or_assign hphp_string_hash hphp_string_isame
          (HashMapRep.empty HPHP.String Nat) [107] 1).count) :=
  ⟨by decide,
    stringimap_overwrite_in_place
      (insert_or_assign hphp_string_hash hphp_string_isame
        (HashMapRep.empty HPHP.String Nat) [107] 1) [107] 2
      { key := [107], value := 1 } (by decide)⟩

/-- C5: Erase-one-preserves-others: erasing a key `x` that is not
case-insensitively equal to the key of a stored Entry `eb` leaves `eb` at its
handle in the stable store unmoved, so a reference to `eb`'s value taken
before the erase still reads the same value afterwards. -/
theorem stringimap_erase_preserves_others {T : Type} (m : StringIMap T)
    (x : String) (hb : Nat) (eb : Entry String T)
    (hstore : m.store[hb]? = some (some eb))
    (hx : hphp_string_isame x eb.key = false) :
    ((erase hphp_string_hash hphp_string_isame m x).1).store[hb]? =
      some (some eb) :=
  erase_preserves_unrelated hphp_string_hash hphp_string_isame m x hb eb
    hstore hx

theorem stringimap_erase_preserves_others_witness :
    ((insertList hphp_string_hash hphp_string_isame
        (HashMapRep.empty HPHP.String Nat)
        [([97], 1), ([98], 2), ([99], 3)]).store[1]? =
          some (some { key := [98], value := 2 }) ∧
      hphp_string_isame [97]
        ({ key := [98], value := 2 } : Entry HPHP.String Nat).key = false) ∧
    ((erase hphp_string_hash hphp_string_isame
        (insertList hphp_string_hash hphp_string_isame
          (HashMapRep.empty HPHP.String Nat)
          [([97], 1), ([98], 2), ([99], 3)]) [97]).1).store[1]? =
      some (some { key := [98], value := 2 }) :=
  ⟨⟨by decide, by decide⟩,
    stringimap_erase_preserves_others
      (insertList hphp_string_hash hphp_string_isame
        (HashMapRep.empty HPHP.String Nat) [([97], 1), ([98], 2), ([99], 3)])
      [97] 1 { key := [98], value := 2 } (by decide) (by decide)⟩

end req

end HPHP

namespace HPHP

namespace req

open HashMapRep

/-- C4: Growth correctness: after any sequence of N insertions into a fresh
map — crossing any number of growth thresholds — every inserted key is
findable, and `size` equals N minus the number of insertions whose key was
case-insensitively equal to an already-present key. -/
theorem stringimap_growth_correctness {T : Type} (ps : List (String × T)) :
    (∀ p ∈ ps, ∃ e : Entry String T,
      find hphp_string_hash hphp_string_isame
        (insertList hphp_string_hash hphp_string_isame
          (HashMapRep.empty String T) ps) p.1 = some e) ∧
    size (insertList hphp_string_hash hphp_string_isame
        (HashMapRep.empty String T) ps) =
      ps.length - dupCount hphp_string_isame [] (ps.map Prod.fst) := by
  obtain ⟨hwf, hmem, hsize⟩ :=
    insertList_spec ps (HashMapRep.empty String T) []
      (wf_empty String T hphp_string_hash hphp_string_isame)
      (fun k' => memKey_empty_iff k')
  constructor
  · intro p hp
    have hmm : memKey hphp_string_isame
        (insertList hphp_string_hash hphp_string_isame
          (HashMapRep.empty String T) ps) p.1 := by
      rw [hmem p.1, List.nil_append, List.any_eq_true]
      exact ⟨p.1, List.mem_map_of_mem Prod.fst hp, isame_refl p.1⟩
    obtain ⟨h, e, hse, hk⟩ := hmm
    exact ⟨e, find_eq_some_of_mem _ hwf p.1 h e hse hk⟩
  · have hemp : size (HashMapRep.empty String T) = 0 := rfl
    omega

/-- C6: Insert-then-find round trip: inserting `(k, v)` into a well-formed map
and then calling `find` with any casing `k'` of `k` returns an Entry holding
value `v`, whose key keeps the casing of whichever insertion created the
Entry: `k` itself when the key was fresh, the previously stored casing when
the key was already present. -/
theorem stringimap_insert_find_roundtrip {T : Type} (m : StringIMap T)
    (hm : Wf hphp_string_hash hphp_string_isame m) (k : String) (v : T)
    (k' : String) (hk' : hphp_string_isame k' k = true) :
    find hphp_string_hash hphp_string_isame
        (insert_or_assign hphp_string_hash hphp_string_isame m k v) k' =
      some { key :=
        (match find hphp_string_hash hphp_string_isame m k with
          | some e => e.key
          | none => k), value := v } := by
  cases hfs : findSlot hphp_string_hash hphp_string_isame m k with
  | some x =>
    obtain ⟨j, h, e⟩ := x
    have hfind : find hphp_string_hash hphp_string_isame m k = some e := by
      unfold find
      rw [hfs]
      rfl
    rw [hfind]
    show find hphp_string_hash hphp_string_isame
        (insert_or_assign hphp_string_hash hphp_string_isame m k v) k' =
      some { key := e.key, value := v }
    exact find_insert_found m hm k v j h e hfs k' hk'
  | none =>
    have hfind : find hphp_string_hash hphp_string_isame m k = none := by
      unfold find
      rw [hfs]
      rfl
    rw [hfind]
    show find hphp_string_hash hphp_string_isame
        (insert_or_assign hphp_string_hash hphp_string_isame m k v) k' =
      some { key := k, value := v }
    exact find_insert_fresh m hm k v hfs k' hk'

theorem stringimap_insert_find_roundtrip_witness :
    (Wf hphp_string_hash hphp_string_isame
        (HashMapRep.empty HPHP.String Nat) ∧
      hphp_string_isame [107, 101, 121] [75, 101, 121] = true) ∧
    find hphp_string_hash hphp_string_isame
        (insert_or_assign hphp_string_hash hphp_string_isame
          (HashMapRep.empty HPHP.String Nat) [75, 101, 121] 1)
        [107, 101, 121] =
      some { key :=
        (match find hphp_string_hash hphp_string_isame
            (HashMapRep.empty HPHP.String Nat) [75, 101, 121] with
          | some e => e.key
          | none => [75, 101, 121]), value := 1 } :=
  ⟨⟨wf_empty HPHP.String Nat hphp_string_hash hphp_string_isame, by decide⟩,
    stringimap_insert_find_roundtrip (HashMapRep.empty HPHP.String Nat)
      (wf_empty HPHP.String Nat hphp_string_hash hphp_string_isame)
      [75, 101, 121] 1 [107, 101, 121] (by decide)⟩

end req

/-- C7: Hash/equality consistency and purity: `hphp_string_isame` holds
exactly when the case-insensitive normalizations of the two keys are
byte-equal (it is a deterministic pure function of key content, as is
`hphp_string_hash`, both being plain Lean functions of the key bytes), and
equal keys always have equal hashes. -/
theorem hphp_string_functors_consistent :
    (∀ a b : String, hphp_string_isame a b = true ↔ foldCase a = foldCase b) ∧
    (∀ a b : String, hphp_string_isame a b = true →
      hphp_string_hash a = hphp_string_hash b) :=
  ⟨isame_iff, fun _ _ h => hash_eq_of_isame h⟩

theorem hphp_string_functors_consistent_witness :
    (hphp_string_isame [70, 79, 79] [102, 111, 111] = true) ∧
    hphp_string_hash [70, 79, 79] = hphp_string_hash [102, 111, 111] :=
  ⟨by decide,
    hphp_string_functors_consistent.2 [70, 79, 79] [102, 111, 111] (by decide)⟩

namespace req

open HashMapRep

/-- C8: Erase of an absent key: if no live Entry's key is case-insensitively
equal to `k`, then `erase k` reports "not found" (`false`) and returns the
map completely unchanged — in particular `size` is unchanged; absence is not
an error. -/
theorem stringimap_erase_absent {T : Type} (m : StringIMap T) (k : String)
    (habs : ∀ (h : Nat) (e : Entry String T), m.store[h]? = some (some e) →
      hphp_string_isame k e.key = false) :
    erase hphp_string_hash hphp_string_isame m k = (m, false) := by
  cases hfs : findSlot hphp_string_hash hphp_string_isame m k with
  | none => exact erase_not_found _ _ m k hfs
  | some x =>
    obtain ⟨j, h, e⟩ := x
    obtain ⟨hj, hh, hkey⟩ := findSlot_sound _ _ m k j h e hfs
    rw [habs h e hh] at hkey
    exact Bool.noConfusion hkey

theorem stringimap_erase_absent_witness :
    (∀ (h : Nat) (e : Entry HPHP.String Nat),
      (insertList hphp_string_hash hphp_string_isame
        (HashMapRep.empty HPHP.String Nat) [([97], 1)]).store[h]? =
          some (some e) →
      hphp_string_isame [98] e.key = false) ∧
    erase hphp_string_hash hphp_string_isame
        (insertList hphp_string_hash hphp_string_isame
          (HashMapRep.empty HPHP.String Nat) [([97], 1)]) [98] =
      (insertList hphp_string_hash hphp_string_isame
        (HashMapRep.empty HPHP.String Nat) [([97], 1)], false) := by
  have hstore : (insertList hphp_string_hash hphp_string_isame
      (HashMapRep.empty HPHP.String Nat) [([97], 1)]).store =
      [some { key := [97], value := 1 }] := by decide
  have habs : ∀ (h : Nat) (e : Entry HPHP.String Nat),
      (insertList hphp_string_hash hphp_string_isame
        (HashMapRep.empty HPHP.String Nat) [([97], 1)]).store[h]? =
          some (some e) →
      hphp_string_isame [98] e.key = false := by
    intro h e hse
    rw [hstore] at hse
    cases h with
    | zero =>
      have he : some { key := [97], value := 1 } = some e := by
        simpa using hse
      have he2 : ({ key := [97], value := 1 } : Entry HPHP.String Nat) = e :=
        Option.some.inj he
      rw [← he2]
      decide
    | succ n =>
      simp at hse
  exact ⟨habs,
    stringimap_erase_absent
      (insertList hphp_string_hash hphp_string_isame
        (HashMapRep.empty HPHP.String Nat) [([97], 1)]) [98] habs⟩

/-- C9: Clear resets the map: after `clear` the map holds no live Entries
(every previously obtained handle dereferences to nothing, so handles and
iterators obtained before the clear are invalid), `size` is 0, and every
lookup misses. -/
theorem stringimap_clear_resets {T : Type} (m : StringIMap T) (k : String)
    (h : Nat) :
    size (clear m) = 0 ∧
    (clear m).store[h]? = none ∧
    find hphp_string_hash hphp_string_isame (clear m) k = none := by
  refine ⟨rfl, ?_, find_empty hphp_string_hash hphp_string_isame k⟩
  show ([] : List (Option (Entry String T)))[h]? = none
  simp

/-- C10: StringIMap is purely a type alias: `StringIMap T` is definitionally
the generic engine type `req.hash_map String T` instantiated with the
case-insensitive hash and equality functors `hphp_string_hash` and
`hphp_string_isame` — it adds no state or behavior of its own, every
operation being the generic one at this instantiation — and it coincides
definitionally with the alias target spelled out from the claim's words
(`StringIMapSpec`). -/
theorem stringimap_is_type_alias :
    ∀ T : Type,
      StringIMap T = hash_map String T hphp_string_hash hphp_string_isame ∧
      StringIMap T = StringIMapSpec T :=
  fun _ => ⟨rfl, rfl⟩

end req

end HPHP

namespace HPHP

namespace req

open HashMapRep

theorem stringimap_growth_correctness_witness :
    (∀ p ∈ ([([97], 1), ([65], 2), ([98], 3)] : List (HPHP.String × Nat)),
      ∃ e : Entry HPHP.String Nat,
        find hphp_string_hash hphp_string_isame
          (insertList hphp_string_hash hphp_string_isame
            (HashMapRep.empty HPHP.String Nat)
            [([97], 1), ([65], 2), ([98], 3)]) p.1 = some e) ∧
    size (insertList hphp_string_hash hphp_string_isame
        (HashMapRep.empty HPHP.String Nat) [([97], 1), ([65], 2), ([98], 3)]) =
      ([([97], 1), ([65], 2), ([98], 3)] : List (HPHP.String × Nat)).length -
        dupCount hphp_string_isame []
          (([([97], 1), ([65], 2), ([98], 3)] :
            List (HPHP.String × Nat)).map Prod.fst) :=
  stringimap_growth_correctness [([97], 1), ([65], 2), ([98], 3)]

end req

end HPHP
